import Mathlib

/-!
Verification of the core of the `Data_Backup` backup engine (Go sources under
`go-backup-app/core`).  The Go code is shallowly embedded: byte streams are
`List Nat` (each element a byte value `< 256` unless stated otherwise), machine
integers are `Nat`/`Int` with explicit `% 2^w` where overflow matters, fallible
operations return `Except`/`Option`, and the effectful engine entry points are
modelled as pure functions over explicit environment inputs (scan results,
streams, filesystem maps) together with ordered effect traces.

Sources embedded here: `core/archive.go` (ArchiveWriter/ArchiveReader),
`core/huffman.go` (chunked canonical-Huffman codec), `core/crypto.go`
(SHA-256 / HMAC / PBKDF2 / AES-CTR / header framing), `core/manager.go`
(Backup / getReaderPipe / runRestore), `core/incremental.go`
(manifest diff / BackupIncremental), `core/manifest.go` (equalForDiff),
`core/taskrunner.go` (runTask).
-/

namespace DataBackup

instance {ε α : Type} [DecidableEq ε] [DecidableEq α] : DecidableEq (Except ε α) :=
  fun a b =>
    match a, b with
    | .ok x, .ok y =>
        if h : x = y then .isTrue (by rw [h]) else .isFalse (by simp [h])
    | .error x, .error y =>
        if h : x = y then .isTrue (by rw [h]) else .isFalse (by simp [h])
    | .ok _, .error _ => .isFalse (by simp)
    | .error _, .ok _ => .isFalse (by simp)

/-! ## Byte-level primitives

Go writes multi-byte integers with `encoding/binary` in big-endian order.
`beBytes k v` is the `k`-byte big-endian encoding of `v % 2^(8*k)`;
`readBeNat k s` reads `k` bytes from the head of the stream (failing, like
`binary.Read` on a short stream, when fewer than `k` bytes remain). -/

def beBytes : Nat → Nat → List Nat
  | 0, _ => []
  | k + 1, v => (v / 256 ^ k) % 256 :: beBytes k v

def be16 (v : Nat) : List Nat := beBytes 2 v
def be32 (v : Nat) : List Nat := beBytes 4 v
def be64 (v : Nat) : List Nat := beBytes 8 v

def readBeNat : Nat → List Nat → Option (Nat × List Nat)
  | 0, s => some (0, s)
  | _ + 1, [] => none
  | k + 1, b :: s =>
      match readBeNat k s with
      | none => none
      | some (v, rest) => some (b * 256 ^ k + v, rest)

/-- Every element of the list is a byte value. -/
def isBytes (l : List Nat) : Prop := ∀ b ∈ l, b < 256

instance (l : List Nat) : Decidable (isBytes l) := by
  unfold isBytes; infer_instance

/-! ## CRC32 (IEEE)

Embedding of Go `hash/crc32` with the IEEE polynomial exactly as the archive
code uses it (`crc32.NewIEEE()` / `h.Sum32()`): the reflected algorithm with
polynomial `0xEDB88320`, initial value `0xFFFFFFFF` and final complement. -/

def crc32Poly : Nat := 0xEDB88320

def crc32Round (c : Nat) : Nat :=
  if c % 2 = 1 then (c / 2) ^^^ crc32Poly else c / 2

def crc32Rounds : Nat → Nat → Nat
  | 0, c => c
  | k + 1, c => crc32Rounds k (crc32Round c)

def crc32Byte (c b : Nat) : Nat := crc32Rounds 8 (c ^^^ b)

def crc32Update (c : Nat) (data : List Nat) : Nat := data.foldl crc32Byte c

def crc32 (data : List Nat) : Nat := crc32Update 0xFFFFFFFF data ^^^ 0xFFFFFFFF

/-! ## Go `os.FileMode` helpers

`os.FileMode` is a `uint32`; `Mode.IsRegular()` tests that none of the
`ModeType` bits are set, and `Mode.Perm()` masks to the low 9 permission
bits, exactly as in the Go standard library. -/

def modeDir : Nat := 2 ^ 31
def modeSymlink : Nat := 2 ^ 27
def modeTypeMask : Nat :=
  2 ^ 31 + 2 ^ 27 + 2 ^ 26 + 2 ^ 25 + 2 ^ 24 + 2 ^ 21 + 2 ^ 19

def modeIsRegular (m : Nat) : Bool := m &&& modeTypeMask == 0

def modePerm (m : Nat) : Nat := m &&& 0o777

/-! ## Sorting

Go sorts slices with the unstable `sort.Sort`/`sort.Slice`/`sort.Strings`;
every use in the embedded code orders by a key that is strict on the
elements at hand, so the sorted sequence is unique and any correct sorting
algorithm models it.  A structural insertion sort is used so that all
definitions reduce inside the kernel. -/

def insertSorted {α : Type} (le : α → α → Bool) (x : α) : List α → List α
  | [] => [x]
  | y :: t => if le x y then x :: y :: t else y :: insertSorted le x t

def insertionSort {α : Type} (le : α → α → Bool) : List α → List α
  | [] => []
  | x :: t => insertSorted le x (insertionSort le t)

/-! ## Decimal rendering (for the JSON number encoder) -/

def natDecAuxF : Nat → Nat → List Nat
  | 0, _ => []
  | fuel + 1, n => if n < 10 then [n] else n % 10 :: natDecAuxF fuel (n / 10)

def natDecAux (n : Nat) : List Nat := natDecAuxF (n + 1) n

/-- ASCII decimal digits of `n`, most significant first. -/
def natDec (n : Nat) : List Nat := (natDecAux n).reverse.map (· + 48)

/-- ASCII rendering of an integer (leading `-` for negatives). -/
def intDec (i : Int) : List Nat :=
  if i < 0 then 45 :: natDec i.natAbs else natDec i.toNat

/-! ## JSON encoding (model of `encoding/json.Marshal` on the archive records)

Strings are UTF-8 byte lists.  The escaper follows `encoding/json` with its
default HTML escaping: `"` and `\` are backslash-escaped, `\n`/`\r`/`\t` use
their short forms, other control bytes below `0x20` and the HTML-relevant
bytes `<`, `>`, `&` become `\u00xx`, and all other bytes pass through.
(The `U+2028`/`U+2029` special case of `encoding/json` concerns two specific
multi-byte sequences never produced by the inputs considered here.)
Times (`time.Time`, RFC 3339 strings in Go) are modelled as abstract integer
ticks rendered in decimal inside the JSON string; like RFC 3339 this is an
injective, escape-free textual encoding. -/

def hexDigit (n : Nat) : Nat := if n < 10 then n + 48 else n + 87

def jsonEscapeByte (c : Nat) : List Nat :=
  if c = 34 ∨ c = 92 then [92, c]
  else if c = 10 then [92, 110]
  else if c = 13 then [92, 114]
  else if c = 9 then [92, 116]
  else if c < 32 ∨ c = 60 ∨ c = 62 ∨ c = 38 then
    [92, 117, 48, 48, hexDigit (c / 16), hexDigit (c % 16)]
  else [c]

/-- JSON quoted string: `"` ++ escaped bytes ++ `"`. -/
def jsonStr (s : List Nat) : List Nat := 34 :: s.flatMap jsonEscapeByte ++ [34]

def jsonBool (b : Bool) : List Nat :=
  if b then [116, 114, 117, 101] else [102, 97, 108, 115, 101]

/-- Byte string of an ASCII literal (UTF-8 of an ASCII string is its code
points). -/
def strBytes (s : String) : List Nat := s.data.map (fun c => c.toNat)

/-- One `"key":value` member (the key is a literal ASCII string). -/
def jsonMember (key : String) (v : List Nat) : List Nat :=
  jsonStr (strBytes key) ++ [58] ++ v

/-- Modelled `time.Time` JSON value (see the section header). -/
def jsonTime (t : Int) : List Nat := 34 :: intDec t ++ [34]

/-! ## `core/archive.go` — FileMetadata and the archive writer

`FileMetadata` is the per-entry JSON header.  `size`/`modTime` are Go
`int64`s, `mode` a `uint32`. -/

structure FileMetadata where
  path : List Nat
  size : Int
  mode : Nat
  modTime : Int
  isDir : Bool
  isLink : Bool
  linkDest : List Nat
  hasCrc : Bool
  deleted : Bool
deriving DecidableEq, Repr

/-- `json.Marshal` output for `FileMetadata`: members in struct-field order;
`hasCrc` and `deleted` carry `omitempty` and are dropped when `false`. -/
def jsonMarshalMeta (m : FileMetadata) : List Nat :=
  [123]
  ++ jsonMember "path" (jsonStr m.path) ++ [44]
  ++ jsonMember "size" (intDec m.size) ++ [44]
  ++ jsonMember "mode" (natDec m.mode) ++ [44]
  ++ jsonMember "modTime" (jsonTime m.modTime) ++ [44]
  ++ jsonMember "isDir" (jsonBool m.isDir) ++ [44]
  ++ jsonMember "isLink" (jsonBool m.isLink) ++ [44]
  ++ jsonMember "linkDest" (jsonStr m.linkDest)
  ++ (if m.hasCrc then [44] ++ jsonMember "hasCrc" (jsonBool true) else [])
  ++ (if m.deleted then [44] ++ jsonMember "deleted" (jsonBool true) else [])
  ++ [125]

inductive ArchiveError
  | sizeMismatch
  | headerLenOutOfRange
  | shortRead
  | badHeaderJson
deriving DecidableEq, Repr

/-- `ArchiveWriter.WriteEntry`: 4-byte big-endian header length, the JSON
header, the first `size` bytes of `data` (via `io.LimitReader`; fewer
available bytes is a "file size mismatch" error), and — when `hasCrc` is set
on a non-deleted regular file — the 4-byte big-endian CRC32-IEEE of the
payload bytes exactly as they were written. -/
def writeEntry (meta : FileMetadata) (data : Option (List Nat)) :
    Except ArchiveError (List Nat) :=
  let headerBytes := jsonMarshalMeta meta
  let withCrc := meta.hasCrc && modeIsRegular meta.mode && !meta.deleted
  let emit : List Nat → List Nat := fun payload =>
    be32 headerBytes.length ++ headerBytes ++ payload
      ++ (if withCrc then be32 (crc32 payload) else [])
  match data with
  | some d =>
      if 0 < meta.size then
        if (d.length : Int) < meta.size then .error .sizeMismatch
        else .ok (emit (d.take meta.size.toNat))
      else .ok (emit [])
  | none => .ok (emit [])

def maxArchiveHeaderLen : Nat := 2 ^ 20

/-! ## Manifest records (`core/manifest.go`) -/

def internalMetaPrefixB : List Nat := strBytes ".qbakmeta/"
def manifestEntryPathB : List Nat := strBytes ".qbakmeta/manifest.json"

def isInternalPath (p : List Nat) : Bool := internalMetaPrefixB.isPrefixOf p

structure ManifestFile where
  path : List Nat
  size : Int
  mode : Nat
  modTime : Int
  isDir : Bool
  isLink : Bool
  linkDest : List Nat
deriving DecidableEq, Repr

inductive BackupType
  | full
  | incremental
deriving DecidableEq, Repr

structure BackupManifest where
  version : Nat
  type : BackupType
  createdAt : Int
  parent : List Nat
  files : List ManifestFile
deriving DecidableEq, Repr

/-- `ManifestFile.equalForDiff` from `core/manifest.go`: path and type bits
must agree, modes must agree; symlinks additionally compare `linkDest`,
directories ignore size and modTime, regular entries compare size and
modTime. -/
def equalForDiff (mf other : ManifestFile) : Bool :=
  if mf.path ≠ other.path then false
  else if mf.isDir ≠ other.isDir ∨ mf.isLink ≠ other.isLink then false
  else if mf.mode ≠ other.mode then false
  else if mf.isLink then mf.linkDest == other.linkDest
  else if mf.isDir then true
  else if mf.size ≠ other.size then false
  else mf.modTime == other.modTime

def jsonMarshalManifestFile (f : ManifestFile) : List Nat :=
  [123]
  ++ jsonMember "path" (jsonStr f.path) ++ [44]
  ++ jsonMember "size" (intDec f.size) ++ [44]
  ++ jsonMember "mode" (natDec f.mode) ++ [44]
  ++ jsonMember "modTime" (jsonTime f.modTime) ++ [44]
  ++ jsonMember "isDir" (jsonBool f.isDir) ++ [44]
  ++ jsonMember "isLink" (jsonBool f.isLink)
  ++ (if f.linkDest ≠ [] then [44] ++ jsonMember "linkDest" (jsonStr f.linkDest) else [])
  ++ [125]

def jsonArray (elems : List (List Nat)) : List Nat :=
  91 :: (elems.intersperse [44]).flatten ++ [93]

def backupTypeStr : BackupType → List Nat
  | .full => strBytes "full"
  | .incremental => strBytes "incremental"

def jsonMarshalManifest (m : BackupManifest) : List Nat :=
  [123]
  ++ jsonMember "version" (natDec m.version) ++ [44]
  ++ jsonMember "type" (jsonStr (backupTypeStr m.type)) ++ [44]
  ++ jsonMember "createdAt" (jsonTime m.createdAt)
  ++ (if m.parent ≠ [] then [44] ++ jsonMember "parent" (jsonStr m.parent) else [])
  ++ [44] ++ jsonMember "files" (jsonArray (m.files.map jsonMarshalManifestFile))
  ++ [125]

/-! ## JSON parsing (model of `encoding/json.Unmarshal` on archive headers)

`json.Unmarshal` accepts arbitrary member order; the model parses the
canonical member order that `json.Marshal` emits, which is the only shape the
engine itself ever produces or consumes. -/

def parseLit (pat s : List Nat) : Option (List Nat) :=
  if pat.isPrefixOf s then some (s.drop pat.length) else none

def hexVal (c : Nat) : Nat :=
  if 48 ≤ c ∧ c ≤ 57 then c - 48
  else if 97 ≤ c ∧ c ≤ 102 then c - 87
  else if 65 ≤ c ∧ c ≤ 70 then c - 55
  else 0

/-- Body of a JSON string after the opening quote: unescape up to the closing
quote, returning the content and the remainder after the quote.  `\uXXXX`
escapes are only produced by the encoder for ASCII values, so only those are
reconstructed. -/
def parseStrBodyF : Nat → List Nat → Option (List Nat × List Nat)
  | 0, _ => none
  | _ + 1, [] => none
  | _ + 1, 34 :: rest => some ([], rest)
  | fuel + 1, 92 :: esc =>
      match esc with
      | [] => none
      | 117 :: h1 :: h2 :: h3 :: h4 :: rest =>
          let v := ((hexVal h1 * 16 + hexVal h2) * 16 + hexVal h3) * 16 + hexVal h4
          if v < 128 then
            match parseStrBodyF fuel rest with
            | some (t, r) => some (v :: t, r)
            | none => none
          else none
      | c :: rest =>
          let decoded : Option Nat :=
            if c = 34 ∨ c = 92 ∨ c = 47 then some c
            else if c = 110 then some 10
            else if c = 114 then some 13
            else if c = 116 then some 9
            else none
          match decoded with
          | none => none
          | some b =>
              match parseStrBodyF fuel rest with
              | some (t, r) => some (b :: t, r)
              | none => none
  | fuel + 1, c :: rest =>
      match parseStrBodyF fuel rest with
      | some (t, r) => some (c :: t, r)
      | none => none

def parseStrBody (s : List Nat) : Option (List Nat × List Nat) :=
  parseStrBodyF (s.length + 1) s

def parseStrJson (s : List Nat) : Option (List Nat × List Nat) := do
  let s ← parseLit [34] s
  parseStrBody s

def parseNatDigits (s : List Nat) : Option (Nat × List Nat) :=
  let digs := s.takeWhile (fun c => 48 ≤ c && c ≤ 57)
  if digs.isEmpty then none
  else some (digs.foldl (fun a c => a * 10 + (c - 48)) 0, s.drop digs.length)

def parseIntJson (s : List Nat) : Option (Int × List Nat) :=
  match s with
  | 45 :: rest => (parseNatDigits rest).map (fun p => (-(p.1 : Int), p.2))
  | _ => (parseNatDigits s).map (fun p => ((p.1 : Int), p.2))

def parseTimeJson (s : List Nat) : Option (Int × List Nat) := do
  let s ← parseLit [34] s
  let (v, s) ← parseIntJson s
  let s ← parseLit [34] s
  pure (v, s)

def parseBoolJson (s : List Nat) : Option (Bool × List Nat) :=
  match parseLit (jsonBool true) s with
  | some r => some (true, r)
  | none =>
      match parseLit (jsonBool false) s with
      | some r => some (false, r)
      | none => none

def memberPat (key : String) : List Nat := jsonStr (strBytes key) ++ [58]

def parseMemberP {α : Type} (key : String)
    (pv : List Nat → Option (α × List Nat)) (s : List Nat) :
    Option (α × List Nat) := do
  let s ← parseLit (memberPat key) s
  pv s

/-- Optional trailing `,"key":value` member (for `omitempty` fields). -/
def parseOptMember {α : Type} (key : String)
    (pv : List Nat → Option (α × List Nat)) (dflt : α) (s : List Nat) :
    (α × List Nat) :=
  match parseLit ([44] ++ memberPat key) s with
  | some s2 =>
      match pv s2 with
      | some (v, s3) => (v, s3)
      | none => (dflt, s)
  | none => (dflt, s)

/-- Members `path`, `size`, `mode` (shared by the two header records). -/
def parseMetaA (s : List Nat) : Option ((List Nat × Int × Nat) × List Nat) := do
  let (path, s) ← parseMemberP "path" parseStrJson s
  let s ← parseLit [44] s
  let (size, s) ← parseMemberP "size" parseIntJson s
  let s ← parseLit [44] s
  let (mode, s) ← parseMemberP "mode" parseNatDigits s
  pure ((path, size, mode), s)

/-- Members `modTime`, `isDir`, `isLink`. -/
def parseMetaB (s : List Nat) : Option ((Int × Bool × Bool) × List Nat) := do
  let (mt, s) ← parseMemberP "modTime" parseTimeJson s
  let s ← parseLit [44] s
  let (isDir, s) ← parseMemberP "isDir" parseBoolJson s
  let s ← parseLit [44] s
  let (isLink, s) ← parseMemberP "isLink" parseBoolJson s
  pure ((mt, isDir, isLink), s)

/-- Members `linkDest`, optional `hasCrc`, optional `deleted`. -/
def parseMetaC (s : List Nat) : Option ((List Nat × Bool × Bool) × List Nat) := do
  let (linkDest, s) ← parseMemberP "linkDest" parseStrJson s
  let (hasCrc, s) := parseOptMember "hasCrc" parseBoolJson false s
  let (deleted, s) := parseOptMember "deleted" parseBoolJson false s
  pure ((linkDest, hasCrc, deleted), s)

def parseMetaJson (b : List Nat) : Option FileMetadata := do
  let s ← parseLit [123] b
  let ((path, size, mode), s) ← parseMetaA s
  let s ← parseLit [44] s
  let ((mt, isDir, isLink), s) ← parseMetaB s
  let s ← parseLit [44] s
  let ((linkDest, hasCrc, deleted), s) ← parseMetaC s
  let s ← parseLit [125] s
  if s.isEmpty then
    pure { path := path, size := size, mode := mode, modTime := mt,
           isDir := isDir, isLink := isLink, linkDest := linkDest,
           hasCrc := hasCrc, deleted := deleted }
  else none

def parseManifestFileJson (s : List Nat) : Option (ManifestFile × List Nat) := do
  let s ← parseLit [123] s
  let ((path, size, mode), s) ← parseMetaA s
  let s ← parseLit [44] s
  let ((mt, isDir, isLink), s) ← parseMetaB s
  let (linkDest, s) := parseOptMember "linkDest" parseStrJson [] s
  let s ← parseLit [125] s
  pure ({ path := path, size := size, mode := mode, modTime := mt,
          isDir := isDir, isLink := isLink, linkDest := linkDest }, s)

def parseManifestFilesAux : Nat → List Nat → Option (List ManifestFile × List Nat)
  | 0, _ => none
  | fuel + 1, s =>
      match parseManifestFileJson s with
      | none => none
      | some (f, s1) =>
          match s1 with
          | 44 :: s2 =>
              match parseManifestFilesAux fuel s2 with
              | some (fs, r) => some (f :: fs, r)
              | none => none
          | 93 :: s2 => some ([f], s2)
          | _ => none

def parseManifestFiles (s : List Nat) : Option (List ManifestFile × List Nat) := do
  let s ← parseLit [91] s
  match s with
  | 93 :: r => some ([], r)
  | _ => parseManifestFilesAux (s.length + 1) s

def parseBackupType (s : List Nat) : Option (BackupType × List Nat) :=
  match parseLit (jsonStr (backupTypeStr .full)) s with
  | some r => some (.full, r)
  | none =>
      match parseLit (jsonStr (backupTypeStr .incremental)) s with
      | some r => some (.incremental, r)
      | none => none

/-- Members `version`, `type`, `createdAt`. -/
def parseManifestA (s : List Nat) : Option ((Nat × BackupType × Int) × List Nat) := do
  let (ver, s) ← parseMemberP "version" parseNatDigits s
  let s ← parseLit [44] s
  let (ty, s) ← parseMemberP "type" parseBackupType s
  let s ← parseLit [44] s
  let (created, s) ← parseMemberP "createdAt" parseTimeJson s
  pure ((ver, ty, created), s)

def parseManifestJson (b : List Nat) : Option BackupManifest := do
  let s ← parseLit [123] b
  let ((ver, ty, created), s) ← parseManifestA s
  let (parent, s) := parseOptMember "parent" parseStrJson [] s
  let s ← parseLit [44] s
  let (files, s) ← parseMemberP "files" parseManifestFiles s
  let s ← parseLit [125] s
  if s.isEmpty then
    pure { version := ver, type := ty, createdAt := created,
           parent := parent, files := files }
  else none

/-! ## Filesystem model for the restore engine (`core/manager.go`)

The restore target is modelled as an association list from slash-separated
relative paths (relative to `restoreDir`, as produced by
`filepath.Join(restoreDir, meta.Path)`; the entry `"."` maps to the restore
root itself, the empty key) to filesystem nodes.  Files carry content,
permission bits and a modification time; directories carry permission bits
and a time; symlinks carry their target string.  `os.Chmod`/`os.Chtimes`
follow symbolic links, which the model reproduces by resolving link nodes
(relative targets resolve against the link's directory; absolute targets
leave the restore tree and the failed call is logged by the engine, a
no-op here).  Freshly `os.Create`d files get permission `0666` (the umask is
not modelled); `MkdirAll`-created intermediate directories and dirs get the
requested permission and the ambient time `now`. -/

inductive FSNode
  | file (content : List Nat) (perm : Nat) (mtime : Int)
  | dir (perm : Nat) (mtime : Int)
  | link (dest : List Nat)
deriving DecidableEq, Repr

abbrev FS := List (List Nat × FSNode)

def fsGet (fs : FS) (k : List Nat) : Option FSNode :=
  (fs.find? (fun e => e.1 == k)).map (fun e => e.2)

def fsSet (fs : FS) (k : List Nat) (v : FSNode) : FS :=
  (k, v) :: fs.filter (fun e => !(e.1 == k))

/-- Path containment used by `os.RemoveAll`: the path itself and everything
below it. -/
def underPath (p q : List Nat) : Bool := q == p || (p ++ [47]).isPrefixOf q

def fsRemoveAll (fs : FS) (k : List Nat) : FS :=
  fs.filter (fun e => !(underPath k e.1))

/-- `filepath.Join(restoreDir, p)` as a key relative to the restore root. -/
def cleanRel (p : List Nat) : List Nat := if p = [46] then [] else p

/-- Directory part of a key (`filepath.Dir` up to the last slash). -/
def parentKey (k : List Nat) : List Nat :=
  ((k.reverse.dropWhile (fun b => !(b == 47))).drop 1).reverse

/-- Final path element of a key. -/
def lastSeg (k : List Nat) : List Nat :=
  (k.reverse.takeWhile (fun b => !(b == 47))).reverse

def joinKey (dir rel : List Nat) : List Nat :=
  if dir.isEmpty then rel else dir ++ 47 :: rel

/-- `os.MkdirAll(k, perm)`: create every missing directory on the chain down
to `k`; existing nodes are left untouched. -/
def mkdirAllAux : Nat → FS → List Nat → Nat → Int → FS
  | 0, fs, _, _, _ => fs
  | fuel + 1, fs, k, perm, now =>
      if k.isEmpty then fs
      else
        let fs1 := mkdirAllAux fuel fs (parentKey k) perm now
        match fsGet fs1 k with
        | some _ => fs1
        | none => fsSet fs1 k (.dir perm now)

def mkdirAllModel (fs : FS) (k : List Nat) (perm : Nat) (now : Int) : FS :=
  mkdirAllAux (k.length + 1) fs k perm now

/-- Resolve a key through symlink nodes the way the OS does for
`chmod`/`chtimes`: while the node is a symlink, a relative target resolves
against the link's directory; an absolute target (or a dangling one) leaves
the modelled tree, making the call a logged no-op (`none`). -/
def resolveKey (fs : FS) (k : List Nat) : Nat → Option (List Nat)
  | 0 => none
  | fuel + 1 =>
      match fsGet fs k with
      | some (.link dest) =>
          if dest.head? = some 47 then none
          else resolveKey fs (joinKey (parentKey k) dest) fuel
      | some _ => some k
      | none => none

def setPerm (n : FSNode) (perm : Nat) : FSNode :=
  match n with
  | .file c _ t => .file c perm t
  | .dir _ t => .dir perm t
  | .link d => .link d

def setMtime (n : FSNode) (t : Int) : FSNode :=
  match n with
  | .file c p _ => .file c p t
  | .dir p _ => .dir p t
  | .link d => .link d

/-- `os.Chmod` (follows symlinks; failures are logged, not fatal). -/
def chmodModel (fs : FS) (k : List Nat) (perm : Nat) : FS :=
  match resolveKey fs k (fs.length + 1) with
  | some target =>
      match fsGet fs target with
      | some n => fsSet fs target (setPerm n perm)
      | none => fs
  | none => fs

/-- `os.Chtimes` (follows symlinks; failures ignored). -/
def chtimesModel (fs : FS) (k : List Nat) (t : Int) : FS :=
  match resolveKey fs k (fs.length + 1) with
  | some target =>
      match fsGet fs target with
      | some n => fsSet fs target (setMtime n t)
      | none => fs
  | none => fs

inductive ConflictAction
  | skip
  | overwrite
  | keepBoth
deriving DecidableEq, Repr

/-- `filepath.Ext` of the final path element: suffix from the last dot
(empty when there is no dot). -/
def extOf (name : List Nat) : List Nat :=
  let r := name.reverse.takeWhile (fun b => !(b == 46))
  if r.length = name.length then [] else 46 :: r.reverse

/-- Pick the `base (N).ext` name for `ConflictAction.keepBoth`, with `N` the
smallest positive integer whose name is free. -/
def freeKeepBothKey (fs : FS) (k : List Nat) : Nat → Nat → List Nat
  | 0, _ => k
  | fuel + 1, i =>
      let dir := parentKey k
      let file := lastSeg k
      let ext := extOf file
      let base := file.take (file.length - ext.length)
      let cand := joinKey dir (base ++ strBytes " (" ++ natDec i ++ strBytes ")" ++ ext)
      match fsGet fs cand with
      | none => cand
      | some _ => freeKeepBothKey fs k fuel (i + 1)

/-- `BackupManager.writeFileFromPipe`: conflict resolution when the target
exists, `MkdirAll` of the parent with `0755`, create/truncate, copy the
payload, then `Chmod(mode.Perm())` and `Chtimes(modTime)`. -/
def writeFileModel (conflict : Option (List Nat → ConflictAction)) (now : Int)
    (fs : FS) (meta : FileMetadata) (key : List Nat) (payload : List Nat) : FS :=
  let create : FS → List Nat → FS := fun fs k =>
    let fs1 := mkdirAllModel fs (parentKey k) 0o755 now
    let fs2 := fsSet fs1 k (.file payload 0o666 now)
    let fs3 := chmodModel fs2 k (modePerm meta.mode)
    chtimesModel fs3 k meta.modTime
  match fsGet fs key, conflict with
  | some _, some h =>
      match h key with
      | .skip => fs
      | .overwrite => create fs key
      | .keepBoth => create fs (freeKeepBothKey fs key (fs.length + 2) 1)
  | _, _ => create fs key

/-- `BackupManager.createDirOrLink`: symlinks are created only when the path
is free (a failed `os.Symlink` is logged); directories via
`MkdirAll(mode.Perm())`; then unconditionally `Chmod(mode.Perm())` and
`Chtimes(modTime)` on the entry path — both of which follow symlinks. -/
def createDirOrLinkModel (now : Int) (fs : FS) (meta : FileMetadata)
    (key : List Nat) : FS :=
  let fs1 :=
    if meta.isLink then
      match fsGet fs key with
      | some _ => fs
      | none => fsSet fs key (.link meta.linkDest)
    else if meta.isDir then
      mkdirAllModel fs key (modePerm meta.mode) now
    else fs
  let fs2 := chmodModel fs1 key (modePerm meta.mode)
  chtimesModel fs2 key meta.modTime

inductive RestoreError
  | readEntry
  | headerLenOutOfRange
  | shortHeader
  | badHeaderJson
  | manifestSize
  | manifestShort
  | manifestCrcShort
  | manifestParse
  | internalSkipShort
  | crcShort
  | crcMismatch
deriving DecidableEq, Repr

/-- `ArchiveReader.NextEntry`: EOF exactly at an entry boundary ends the
stream; otherwise a 4-byte big-endian header length in `[1, 1 MiB]`, that
many bytes of JSON, parsed into `FileMetadata`. -/
def parseEntryHeader (s : List Nat) :
    Except RestoreError (Option (FileMetadata × List Nat)) :=
  match s with
  | [] => .ok none
  | _ =>
      match readBeNat 4 s with
      | none => .error .readEntry
      | some (hl, rest) =>
          if hl = 0 ∨ hl > maxArchiveHeaderLen then .error .headerLenOutOfRange
          else if rest.length < hl then .error .shortHeader
          else
            match parseMetaJson (rest.take hl) with
            | none => .error .badHeaderJson
            | some meta => .ok (some (meta, rest.drop hl))

/-- Handling of a single parsed entry by the `runRestore` producer (payload
consumption, CRC verification) and its worker (filesystem materialisation,
executed here at its sequential linearisation point).  On an error the
partially-materialised target state is no longer tracked — the engine
returns the error to the caller. -/
def restoreDispatch (conflict : Option (List Nat → ConflictAction)) (now : Int)
    (fs : FS) (meta : FileMetadata) (s : List Nat) :
    Except RestoreError (FS × List Nat) :=
  let key := cleanRel meta.path
  if isInternalPath meta.path then
    if meta.path = manifestEntryPathB then
      if meta.size < 0 then .error .manifestSize
      else if s.length < meta.size.toNat then .error .manifestShort
      else
        let payload := s.take meta.size.toNat
        let s1 := s.drop meta.size.toNat
        let next : Except RestoreError (List Nat) :=
          if meta.hasCrc then
            match readBeNat 4 s1 with
            | none => .error .manifestCrcShort
            | some (_, s2) => .ok s2
          else .ok s1
        match next with
        | .error e => .error e
        | .ok s2 =>
            match parseManifestJson payload with
            | none => .error .manifestParse
            | some _ => .ok (fs, s2)
    else
      if s.length < meta.size.toNat then .error .internalSkipShort
      else
        let s1 := s.drop meta.size.toNat
        if meta.hasCrc then
          match readBeNat 4 s1 with
          | none => .error .internalSkipShort
          | some (_, s2) => .ok (fs, s2)
        else .ok (fs, s1)
  else if meta.deleted then
    if s.length < meta.size.toNat then .error .internalSkipShort
    else
      let s1 := s.drop meta.size.toNat
      let next : Except RestoreError (List Nat) :=
        if meta.hasCrc then
          match readBeNat 4 s1 with
          | none => .error .internalSkipShort
          | some (_, s2) => .ok s2
        else .ok s1
      match next with
      | .error e => .error e
      | .ok s2 => .ok (fsRemoveAll fs key, s2)
  else if meta.isLink || meta.isDir then
    .ok (createDirOrLinkModel now fs meta key, s)
  else if modeIsRegular meta.mode then
    let payload := s.take meta.size.toNat
    let s1 := s.drop meta.size.toNat
    if meta.hasCrc then
      match readBeNat 4 s1 with
      | none => .error .crcShort
      | some (expected, s2) =>
          if crc32 payload ≠ expected then .error .crcMismatch
          else .ok (writeFileModel conflict now fs meta key payload, s2)
    else .ok (writeFileModel conflict now fs meta key payload, s1)
  else .ok (fs, s)

/-- The `runRestore` producer loop: read entry headers and dispatch until a
clean EOF.  Every produced entry consumes at least the 4 length bytes, so
`fuel = stream length + 1` always suffices. -/
def runRestoreLoop (conflict : Option (List Nat → ConflictAction)) (now : Int) :
    Nat → FS → List Nat → Except RestoreError FS
  | 0, _, _ => .error .readEntry
  | fuel + 1, fs, s =>
      match parseEntryHeader s with
      | .error e => .error e
      | .ok none => .ok fs
      | .ok (some (meta, rest)) =>
          match restoreDispatch conflict now fs meta rest with
          | .error e => .error e
          | .ok (fs1, s1) => runRestoreLoop conflict now fuel fs1 s1

def runRestoreModel (conflict : Option (List Nat → ConflictAction)) (now : Int)
    (fs0 : FS) (s : List Nat) : Except RestoreError FS :=
  runRestoreLoop conflict now (s.length + 1) fs0 s

/-! ## Scanner and backup engine (`core/scan.go`, `core/manager.go`)

The source side is modelled as a snapshot: a root directory node plus the
surviving (filter-selected) descendants in the deterministic `filepath.Walk`
emission order, each a `SrcNode` carrying the `Lstat` data the workers read
(`mode`, `modTime`, regular-file content, symlink target).  `scanModel` is
`scanSources` on that snapshot: the root contributes the `"."` job (excluded
from the manifest), every entry becomes a job plus — for non-root entries —
a `ManifestFile`, non-directories are counted, regular file sizes summed,
and the manifest list is sorted by path. -/

structure SrcNode where
  mode : Nat
  mtime : Int
  content : List Nat
  dest : List Nat
deriving DecidableEq, Repr

def isDirMode (m : Nat) : Bool := m &&& modeDir != 0
def isLinkMode (m : Nat) : Bool := m &&& modeSymlink != 0

/-- Byte-wise lexicographic order on paths (Go string `<`). -/
def lexLt : List Nat → List Nat → Bool
  | [], [] => false
  | [], _ :: _ => true
  | _ :: _, [] => false
  | a :: as, b :: bs => if a < b then true else if b < a then false else lexLt as bs

def sortPaths (l : List (List Nat)) : List (List Nat) :=
  insertionSort (fun a b => !(lexLt b a)) l

def sortManifestFiles (l : List ManifestFile) : List ManifestFile :=
  insertionSort (fun a b => !(lexLt b.path a.path)) l

def manifestFileOf (rel : List Nat) (n : SrcNode) : ManifestFile :=
  { path := rel, mode := n.mode, modTime := n.mtime,
    isDir := isDirMode n.mode, isLink := isLinkMode n.mode,
    size := if modeIsRegular n.mode then (n.content.length : Int) else 0,
    linkDest := if isLinkMode n.mode then n.dest else [] }

structure ScanResultM where
  jobs : List (List Nat)
  files : List ManifestFile
  selectedFileCount : Nat
  selectedBytes : Int
deriving Repr

def scanModel (rootNode : SrcNode) (children : List (List Nat × SrcNode)) :
    ScanResultM :=
  { jobs := strBytes "." :: children.map (fun c => c.1)
    files := sortManifestFiles (children.map (fun c => manifestFileOf c.1 c.2))
    selectedFileCount :=
      children.countP (fun c => !isDirMode c.2.mode)
      + (if isDirMode rootNode.mode then 0 else 1)
    selectedBytes :=
      children.foldl
        (fun a c =>
          a + (if modeIsRegular c.2.mode then (c.2.content.length : Int) else 0))
        0 }

def srcLookup (rootNode : SrcNode) (children : List (List Nat × SrcNode))
    (rel : List Nat) : Option SrcNode :=
  if rel = strBytes "." then some rootNode
  else (children.find? (fun c => c.1 == rel)).map (fun c => c.2)

/-- The archive entry a backup worker writes for one job: symlinks are
detected first (`Mode&ModeSymlink`, target from `Readlink`, size forced 0),
then regular files (`hasCrc := true`, payload streamed from the opened
file), everything else (directories included) gets size 0 and no payload. -/
def backupEntryFor (rel : List Nat) (n : SrcNode) :
    Except ArchiveError (List Nat) :=
  if isLinkMode n.mode then
    writeEntry
      { path := rel, size := 0, mode := n.mode, modTime := n.mtime,
        isDir := isDirMode n.mode, isLink := true, linkDest := n.dest,
        hasCrc := false, deleted := false } none
  else if modeIsRegular n.mode then
    writeEntry
      { path := rel, size := (n.content.length : Int), mode := n.mode,
        modTime := n.mtime, isDir := isDirMode n.mode, isLink := false,
        linkDest := [], hasCrc := true, deleted := false } (some n.content)
  else
    writeEntry
      { path := rel, size := 0, mode := n.mode, modTime := n.mtime,
        isDir := isDirMode n.mode, isLink := false, linkDest := [],
        hasCrc := false, deleted := false } none

/-- Metadata of the manifest entry (`Backup` writes it first, mode `0644`,
no CRC). -/
def manifestEntryMeta (payloadLen : Nat) (now : Int) : FileMetadata :=
  { path := manifestEntryPathB, size := (payloadLen : Int), mode := 0o644,
    modTime := now, isDir := false, isLink := false, linkDest := [],
    hasCrc := false, deleted := false }

/-- Serialized archive body of a full backup before the optional stream
transforms: the manifest entry followed by the job entries in the order the
workers acquired the archive mutex (here the scan emission order — one
admissible schedule of the worker pool). -/
def backupArchiveBody (rootNode : SrcNode)
    (children : List (List Nat × SrcNode)) (now : Int) :
    Except ArchiveError (List Nat) :=
  let scan := scanModel rootNode children
  let manifest : BackupManifest :=
    { version := 1, type := .full, createdAt := now, parent := [],
      files := scan.files }
  let mbytes := jsonMarshalManifest manifest
  match writeEntry (manifestEntryMeta mbytes.length now) (some mbytes) with
  | .error e => .error e
  | .ok first =>
      scan.jobs.foldl
        (fun acc rel =>
          match acc with
          | .error e => .error e
          | .ok sofar =>
              match srcLookup rootNode children rel with
              | none => .error .shortRead
              | some n =>
                  match backupEntryFor rel n with
                  | .error e => .error e
                  | .ok bytes => .ok (sofar ++ bytes))
        (.ok first)

/-! ### Backup / BackupIncremental control flow (claim C4)

`Backup` and `BackupIncremental` are modelled as decision traces over their
environment inputs: the scan result (or scan failure), and for incrementals
the parent manifest.  `destCreated` records whether execution reached the
`os.Create(destFile)` call. -/

inductive BackupError
  | scanFailed
  | noFilesSelected
  | noChanges
  | parentManifestMissing
  | archive (e : ArchiveError)
deriving DecidableEq, Repr

structure BackupOutcome where
  result : Except BackupError Unit
  destCreated : Bool
deriving Repr

/-- Control flow of `BackupManager.Backup` up to the point where the
destination is created: scan, fail with `NoFilesSelected` on a zero count
(before `os.Create`), otherwise marshal the manifest and create the
destination.  The streaming tail is abstracted by `rest`, which runs only
after creation. -/
def backupControl (scanRes : Option ScanResultM)
    (rest : ScanResultM → Except BackupError Unit) : BackupOutcome :=
  match scanRes with
  | none => { result := .error .scanFailed, destCreated := false }
  | some sr =>
      if sr.selectedFileCount = 0 then
        { result := .error .noFilesSelected, destCreated := false }
      else
        { result := rest sr, destCreated := true }

/-! ### Incremental diff (`BackupIncremental`, claim C5)

`manifestFilesToMap` keys files by path with later entries overwriting
earlier ones; the diff loops over the parent map (paths missing from the
current map are deleted) and over the current map (paths missing from the
parent or failing `equalForDiff` are changed; a type flip additionally marks
the path deleted). -/

def mfLookup (files : List ManifestFile) (p : List Nat) : Option ManifestFile :=
  (files.reverse.find? (fun f => f.path == p))

def inChangedSet (parentFiles curFiles : List ManifestFile) (p : List Nat) : Bool :=
  match mfLookup curFiles p with
  | none => false
  | some cur =>
      match mfLookup parentFiles p with
      | none => true
      | some prev => !equalForDiff cur prev

def inDeletedSet (parentFiles curFiles : List ManifestFile) (p : List Nat) : Bool :=
  match mfLookup parentFiles p with
  | none => false
  | some prev =>
      match mfLookup curFiles p with
      | none => true
      | some cur =>
          !equalForDiff cur prev
          && (decide (cur.isDir ≠ prev.isDir) || decide (cur.isLink ≠ prev.isLink))

def changedPaths (parentFiles curFiles : List ManifestFile) : List (List Nat) :=
  sortPaths (((curFiles.map (fun f => f.path)).dedup).filter
    (inChangedSet parentFiles curFiles))

def deletedPaths (parentFiles curFiles : List ManifestFile) : List (List Nat) :=
  sortPaths (((parentFiles.map (fun f => f.path)).dedup).filter
    (inDeletedSet parentFiles curFiles))

/-- Control flow of `BackupManager.BackupIncremental`: read the parent
manifest (failing without it), scan, diff, fail with `NoChanges` on an empty
diff — all before `os.Create(destFile)`. -/
def backupIncrementalControl (parentManifest : Option BackupManifest)
    (scanRes : Option ScanResultM)
    (rest : ScanResultM → List (List Nat) → List (List Nat) → Except BackupError Unit) :
    BackupOutcome :=
  match parentManifest with
  | none => { result := .error .parentManifestMissing, destCreated := false }
  | some pm =>
      match scanRes with
      | none => { result := .error .scanFailed, destCreated := false }
      | some sr =>
          let changed := changedPaths pm.files sr.files
          let deleted := deletedPaths pm.files sr.files
          if changed.isEmpty ∧ deleted.isEmpty then
            { result := .error .noChanges, destCreated := false }
          else
            { result := rest sr changed deleted, destCreated := true }

/-! ## SHA-256 / HMAC / PBKDF2 (`core/crypto.go`)

The repository ships its own FIPS 180-4 SHA-256; the streaming
`digest.Write`/`checkSum` pair is embedded as pad-then-compress over the
whole message (the same function of the input bytes).  Words are `Nat`s
reduced `% 2^32` wherever Go's `uint32` arithmetic wraps. -/

def w32 : Nat := 2 ^ 32
def w64 : Nat := 2 ^ 64

def rotr32 (x n : Nat) : Nat := x / 2 ^ n + x % 2 ^ n * 2 ^ (32 - n)

def sha256K : List Nat :=
  [1116352408, 1899447441, 3049323471, 3921009573, 961987163, 1508970993,
   2453635748, 2870763221, 3624381080, 310598401, 607225278, 1426881987,
   1925078388, 2162078206, 2614888103, 3248222580, 3835390401, 4022224774,
   264347078, 604807628, 770255983, 1249150122, 1555081692, 1996064986,
   2554220882, 2821834349, 2952996808, 3210313671, 3336571891, 3584528711,
   113926993, 338241895, 666307205, 773529912, 1294757372, 1396182291,
   1695183700, 1986661051, 2177026350, 2456956037, 2730485921, 2820302411,
   3259730800, 3345764771, 3516065817, 3600352804, 4094571909, 275423344,
   430227734, 506948616, 659060556, 883997877, 958139571, 1322822218,
   1537002063, 1747873779, 1955562222, 2024104815, 2227730452, 2361852424,
   2428436474, 2756734187, 3204031479, 3329325298]

def sha256H0 : List Nat :=
  [1779033703, 3144134277, 1013904242, 2773480762,
   1359893119, 2600822924, 528734635, 1541459225]

def toWords : List Nat → List Nat
  | a :: b :: c :: d :: rest => (((a * 256 + b) * 256 + c) * 256 + d) :: toWords rest
  | _ => []

/-- The 64-entry message schedule of one block. -/
def sha256Ws (m : List Nat) : List Nat :=
  (List.range 48).foldl
    (fun w _ =>
      let i := w.length
      let g := fun (k : Nat) => w.getD (i - k) 0
      let s0 := rotr32 (g 15) 7 ^^^ rotr32 (g 15) 18 ^^^ g 15 / 2 ^ 3
      let s1 := rotr32 (g 2) 17 ^^^ rotr32 (g 2) 19 ^^^ g 2 / 2 ^ 10
      w ++ [(g 16 + s0 + g 7 + s1) % w32])
    m

def sha256Compress (h : List Nat) (block16 : List Nat) : List Nat :=
  let w := sha256Ws block16
  let fin :=
    (List.range 64).foldl
      (fun st i =>
        match st with
        | [a, b, c, d, e, f, g, hh] =>
            let s1 := rotr32 e 6 ^^^ rotr32 e 11 ^^^ rotr32 e 25
            let ch := (e &&& f) ^^^ ((e ^^^ (w32 - 1)) &&& g)
            let temp1 := (hh + s1 + ch + sha256K.getD i 0 + w.getD i 0) % w32
            let s0 := rotr32 a 2 ^^^ rotr32 a 13 ^^^ rotr32 a 22
            let maj := (a &&& b) ^^^ (a &&& c) ^^^ (b &&& c)
            let temp2 := (s0 + maj) % w32
            [(temp1 + temp2) % w32, a, b, c, (d + temp1) % w32, e, f, g]
        | other => other)
      h
  List.zipWith (fun x y => (x + y) % w32) h fin

/-- FIPS padding: `0x80`, zeros to 56 mod 64, 8-byte big-endian bit count. -/
def sha256Pad (msg : List Nat) : List Nat :=
  let padLen := (64 - (msg.length + 9) % 64) % 64
  msg ++ 0x80 :: List.replicate padLen 0 ++ be64 (msg.length * 8)

def chunksOfAux (n : Nat) : Nat → List Nat → List (List Nat)
  | 0, _ => []
  | _ + 1, [] => []
  | fuel + 1, a :: t =>
      if n = 0 then []
      else (a :: t).take n :: chunksOfAux n fuel ((a :: t).drop n)

def chunksOf (n : Nat) (l : List Nat) : List (List Nat) := chunksOfAux n l.length l

/-- `Sum256` of `core/crypto.go`. -/
def sum256 (msg : List Nat) : List Nat :=
  let blocks := chunksOf 64 (sha256Pad msg)
  (blocks.foldl (fun h blk => sha256Compress h (toWords blk)) sha256H0).flatMap be32

/-- `prf`: HMAC-SHA-256 built from `Sum256` exactly as in the source. -/
def prf (key data : List Nat) : List Nat :=
  let key1 := if key.length > 64 then sum256 key else key
  let key2 := key1 ++ List.replicate (64 - key1.length) 0
  let opad := key2.map (fun b => b ^^^ 0x5c)
  let ipad := key2.map (fun b => b ^^^ 0x36)
  sum256 (opad ++ sum256 (ipad ++ data))

def pbkdf2Go : Nat → List Nat → List Nat → List Nat → List Nat
  | 0, _, u, _ => u
  | j + 1, password, u, ui =>
      let ui2 := prf password ui
      pbkdf2Go j password (List.zipWith (fun a b => a ^^^ b) u ui2) ui2

def pbkdf2Block (password saltI : List Nat) (iter : Nat) : List Nat :=
  let u0 := prf password saltI
  pbkdf2Go (iter - 1) password u0 u0

def pbkdf2 (password salt : List Nat) (iter keyLen : Nat) : List Nat :=
  let hashLen := 32
  let l := (keyLen + hashLen - 1) / hashLen
  (((List.range l).map (fun i0 =>
      pbkdf2Block password (salt ++ be32 (i0 + 1)) iter)).flatten).take keyLen

def deriveKey (password salt : List Nat) : List Nat := pbkdf2 password salt 4096 32

/-! ## Encrypted-stream framing (`NewEncryptedWriter` / `NewDecryptedReader`) -/

def magicHeaderB : List Nat := strBytes "QBAKENCR"

inductive CryptoError
  | invalidMagic
  | passwordRequired
  | shortHeader
  | unsupportedVersion
  | invalidPassword
deriving DecidableEq, Repr

/-- Version-2 header written by `NewEncryptedWriter`: magic, version,
algorithm, length-prefixed salt and nonce, then the HMAC-SHA-256 of all the
preceding bytes under the derived key. -/
def encryptedHeaderBytes (algorithm : Nat) (salt nonce key : List Nat) : List Nat :=
  let hdr := magicHeaderB ++ [2, algorithm % 256, salt.length % 256] ++ salt
      ++ [nonce.length % 256] ++ nonce
  hdr ++ prf key hdr

/-- `NewDecryptedReader` up to the point where the parallel cipher stream is
constructed.  Returns the algorithm byte, nonce, derived key and the
remaining (untouched) ciphertext bytes.  For a version-2 stream the 32-byte
MAC is read and checked against `prf(key, header-bytes)`; a mismatch is
`ErrInvalidPassword`, raised before any ciphertext byte is consumed. -/
def newDecryptedReaderModel (s password : List Nat) :
    Except CryptoError (Nat × List Nat × List Nat × List Nat) :=
  if s.isEmpty then .error .invalidMagic
  else if s.length < 8 then .error .shortHeader
  else if s.take 8 ≠ magicHeaderB then .error .invalidMagic
  else if password.isEmpty then .error .passwordRequired
  else
    match s.drop 8 with
    | version :: algo :: rest =>
        if version ≠ 1 ∧ version ≠ 2 then .error .unsupportedVersion
        else
          match rest with
          | saltLen :: rest2 =>
              if rest2.length < saltLen then .error .shortHeader
              else
                let salt := rest2.take saltLen
                match rest2.drop saltLen with
                | nonceLen :: rest4 =>
                    if rest4.length < nonceLen then .error .shortHeader
                    else
                      let nonce := rest4.take nonceLen
                      let rest5 := rest4.drop nonceLen
                      let key := deriveKey password salt
                      if version ≥ 2 then
                        if rest5.length < 32 then .error .shortHeader
                        else
                          let mac := rest5.take 32
                          let hdr := magicHeaderB ++ version :: algo :: saltLen ::
                            salt ++ nonceLen :: nonce
                          if mac ≠ prf key hdr then .error .invalidPassword
                          else .ok (algo, nonce, key, rest5.drop 32)
                      else .ok (algo, nonce, key, rest5)
                | [] => .error .shortHeader
          | [] => .error .shortHeader
    | _ => .error .shortHeader

/-! ## AES-256 and the CTR stream (`core/crypto.go`, claim C7)

The repository's own AES: byte-level S-box, key expansion into
`4*(rounds+1)` 32-bit words, and block encryption over the column-major
state.  The flat 16-byte block layout is kept (`state[row][col] =
block[4*col+row]`), with the row/column arithmetic spelled out per index. -/

def sbox : List Nat :=
  [0x63, 0x7c, 0x77, 0x7b, 0xf2, 0x6b, 0x6f, 0xc5, 0x30, 0x01, 0x67, 0x2b, 0xfe, 0xd7, 0xab, 0x76,
   0xca, 0x82, 0xc9, 0x7d, 0xfa, 0x59, 0x47, 0xf0, 0xad, 0xd4, 0xa2, 0xaf, 0x9c, 0xa4, 0x72, 0xc0,
   0xb7, 0xfd, 0x93, 0x26, 0x36, 0x3f, 0xf7, 0xcc, 0x34, 0xa5, 0xe5, 0xf1, 0x71, 0xd8, 0x31, 0x15,
   0x04, 0xc7, 0x23, 0xc3, 0x18, 0x96, 0x05, 0x9a, 0x07, 0x12, 0x80, 0xe2, 0xeb, 0x27, 0xb2, 0x75,
   0x09, 0x83, 0x2c, 0x1a, 0x1b, 0x6e, 0x5a, 0xa0, 0x52, 0x3b, 0xd6, 0xb3, 0x29, 0xe3, 0x2f, 0x84,
   0x53, 0xd1, 0x00, 0xed, 0x20, 0xfc, 0xb1, 0x5b, 0x6a, 0xcb, 0xbe, 0x39, 0x4a, 0x4c, 0x58, 0xcf,
   0xd0, 0xef, 0xaa, 0xfb, 0x43, 0x4d, 0x33, 0x85, 0x45, 0xf9, 0x02, 0x7f, 0x50, 0x3c, 0x9f, 0xa8,
   0x51, 0xa3, 0x40, 0x8f, 0x92, 0x9d, 0x38, 0xf5, 0xbc, 0xb6, 0xda, 0x21, 0x10, 0xff, 0xf3, 0xd2,
   0xcd, 0x0c, 0x13, 0xec, 0x5f, 0x97, 0x44, 0x17, 0xc4, 0xa7, 0x7e, 0x3d, 0x64, 0x5d, 0x19, 0x73,
   0x60, 0x81, 0x4f, 0xdc, 0x22, 0x2a, 0x90, 0x88, 0x46, 0xee, 0xb8, 0x14, 0xde, 0x5e, 0x0b, 0xdb,
   0xe0, 0x32, 0x3a, 0x0a, 0x49, 0x06, 0x24, 0x5c, 0xc2, 0xd3, 0xac, 0x62, 0x91, 0x95, 0xe4, 0x79,
   0xe7, 0xc8, 0x37, 0x6d, 0x8d, 0xd5, 0x4e, 0xa9, 0x6c, 0x56, 0xf4, 0xea, 0x65, 0x7a, 0xae, 0x08,
   0xba, 0x78, 0x25, 0x2e, 0x1c, 0xa6, 0xb4, 0xc6, 0xe8, 0xdd, 0x74, 0x1f, 0x4b, 0xbd, 0x8b, 0x8a,
   0x70, 0x3e, 0xb5, 0x66, 0x48, 0x03, 0xf6, 0x0e, 0x61, 0x35, 0x57, 0xb9, 0x86, 0xc1, 0x1d, 0x9e,
   0xe1, 0xf8, 0x98, 0x11, 0x69, 0xd9, 0x8e, 0x94, 0x9b, 0x1e, 0x87, 0xe9, 0xce, 0x55, 0x28, 0xdf,
   0x8c, 0xa1, 0x89, 0x0d, 0xbf, 0xe6, 0x42, 0x68, 0x41, 0x99, 0x2d, 0x0f, 0xb0, 0x54, 0xbb, 0x16]

def rcon : List Nat :=
  [0x00000000, 0x01000000, 0x02000000, 0x04000000, 0x08000000,
   0x10000000, 0x20000000, 0x40000000, 0x80000000, 0x1b000000, 0x36000000]

def subWord (word : Nat) : Nat :=
  sbox.getD (word / 2 ^ 24) 0 * 2 ^ 24
  + sbox.getD (word / 2 ^ 16 % 256) 0 * 2 ^ 16
  + sbox.getD (word / 2 ^ 8 % 256) 0 * 2 ^ 8
  + sbox.getD (word % 256) 0

def rotWord (word : Nat) : Nat := (word % 2 ^ 24) * 2 ^ 8 + word / 2 ^ 24

def aesRounds (keyLen : Nat) : Nat :=
  if keyLen = 16 then 10 else if keyLen = 24 then 12 else 14

/-- `AES.keyExpansion`: the first `keyLen/4` words come from the key; each
later word combines its predecessor (substituted/rotated at multiples of the
key length) with the word one key-length back. -/
def keyExpansion (key : List Nat) : List Nat :=
  let keyWords := key.length / 4
  let rounds := aesRounds key.length
  (List.range (4 * (rounds + 1) - keyWords)).foldl
    (fun w _ =>
      let i := w.length
      let temp := w.getD (i - 1) 0
      let temp :=
        if i % keyWords = 0 then subWord (rotWord temp) ^^^ rcon.getD (i / keyWords) 0
        else if keyWords > 6 ∧ i % keyWords = 4 then subWord temp
        else temp
      w ++ [w.getD (i - keyWords) 0 ^^^ temp])
    (toWords key)

def galoisMulAux : Nat → Nat → Nat → Nat → Nat
  | 0, p, _, _ => p
  | k + 1, p, a, b =>
      let p2 := if b % 2 = 1 then p ^^^ a else p
      let a2 := if a ≥ 128 then a * 2 % 256 ^^^ 0x1b else a * 2 % 256
      galoisMulAux k p2 a2 (b / 2)

def galoisMul (a b : Nat) : Nat := galoisMulAux 8 0 a b

def subBytesF (s : List Nat) : List Nat := s.map (fun b => sbox.getD b 0)

/-- `shiftRows` on the flat block: row `i` rotates left by `i`. -/
def shiftRowsF (s : List Nat) : List Nat :=
  (List.range 16).map (fun idx =>
    let i := idx % 4
    let j := idx / 4
    s.getD (4 * ((j + i) % 4) + i) 0)

def mixColumnsF (s : List Nat) : List Nat :=
  (List.range 16).map (fun idx =>
    let i := idx % 4
    let c := idx / 4
    let a := fun (r : Nat) => s.getD (4 * c + r) 0
    if i = 0 then galoisMul (a 0) 2 ^^^ galoisMul (a 1) 3 ^^^ a 2 ^^^ a 3
    else if i = 1 then a 0 ^^^ galoisMul (a 1) 2 ^^^ galoisMul (a 2) 3 ^^^ a 3
    else if i = 2 then a 0 ^^^ a 1 ^^^ galoisMul (a 2) 2 ^^^ galoisMul (a 3) 3
    else galoisMul (a 0) 3 ^^^ a 1 ^^^ a 2 ^^^ galoisMul (a 3) 2)

def addRoundKeyF (rk : List Nat) (round : Nat) (s : List Nat) : List Nat :=
  (List.range 16).map (fun idx =>
    let i := idx % 4
    let c := idx / 4
    s.getD idx 0 ^^^ rk.getD (4 * round + c) 0 / 2 ^ (8 * (3 - i)) % 256)

/-- `AES.Encrypt` on one 16-byte block. -/
def aesEncryptBlock (key block : List Nat) : List Nat :=
  let rk := keyExpansion key
  let rounds := aesRounds key.length
  let st0 := addRoundKeyF rk 0 block
  let stMid :=
    (List.range (rounds - 1)).foldl
      (fun st r => addRoundKeyF rk (r + 1) (mixColumnsF (shiftRowsF (subBytesF st))))
      st0
  addRoundKeyF rk rounds (shiftRowsF (subBytesF stMid))

/-! ### AES-CTR stream state (`AESCTRStream`) -/

def chunkSizeEnc : Nat := 2 ^ 20

/-- `chunkSize / 16`: CTR blocks per parallel encryption chunk. -/
def blockPerChunkAES : Nat := chunkSizeEnc / 16

structure AESCTRStreamSt where
  key : List Nat
  iv : List Nat
  counter : Nat
  keystream : List Nat
  pos : Nat
deriving DecidableEq, Repr

def mkAESCTRStream (key iv : List Nat) : AESCTRStreamSt :=
  { key := key, iv := iv, counter := 0, keystream := [], pos := 0 }

/-- `SetCounter`: store the (wrapped) counter and force keystream
regeneration (`pos = 16`). -/
def setCounterModel (s : AESCTRStreamSt) (c : Nat) : AESCTRStreamSt :=
  { s with counter := c % w64, pos := 16 }

/-- Counter block fed to AES: the IV with its last 8 bytes overwritten by
`PutUint64(counter)`. -/
def aesCtrCounterBlock (iv : List Nat) (counter : Nat) : List Nat :=
  iv.take 8 ++ be64 counter

/-- `generateKeystream`: encrypt the counter block, bump the counter. -/
def generateKeystreamModel (s : AESCTRStreamSt) : AESCTRStreamSt :=
  { s with keystream := aesEncryptBlock s.key (aesCtrCounterBlock s.iv s.counter)
           counter := (s.counter + 1) % w64
           pos := 0 }

/-- `XORKeyStream`, consuming keystream bytes and regenerating on demand. -/
def xorKeyStreamAux : Nat → AESCTRStreamSt → List Nat → List Nat × AESCTRStreamSt
  | 0, s, _ => ([], s)
  | _ + 1, s, [] => ([], s)
  | fuel + 1, s, b :: t =>
      let s1 := if s.pos ≥ s.keystream.length then generateKeystreamModel s else s
      match min (s1.keystream.length - s1.pos) (b :: t).length with
      | 0 => ([], s1)
      | n + 1 =>
          let out1 := List.zipWith (fun x k => x ^^^ k) ((b :: t).take (n + 1))
            ((s1.keystream.drop s1.pos).take (n + 1))
          let res := xorKeyStreamAux fuel { s1 with pos := s1.pos + (n + 1) }
            ((b :: t).drop (n + 1))
          (out1 ++ res.1, res.2)

def xorKeyStreamModel (s : AESCTRStreamSt) (src : List Nat) :
    List Nat × AESCTRStreamSt :=
  xorKeyStreamAux (src.length + 1) s src

/-- One `parallelStreamWriter` worker job for chunk id `i` (AES-256-CTR):
`SetCounter(i * blockPerChunk)` then `XORKeyStream` over the chunk. -/
def encryptChunkModel (key iv : List Nat) (i : Nat) (data : List Nat) : List Nat :=
  (xorKeyStreamModel (setCounterModel (mkAESCTRStream key iv) (i * blockPerChunkAES)) data).1

/-- Counter-block value consumed by the `n`-th keystream generation after the
worker's `SetCounter` for chunk `i` (the block `generateKeystream` encrypts
in the state reached by `n` prior generations). -/
def nthCounterBlockUsed (key iv : List Nat) (i n : Nat) : List Nat :=
  let s := generateKeystreamModel^[n] (setCounterModel (mkAESCTRStream key iv) (i * blockPerChunkAES))
  aesCtrCounterBlock s.iv s.counter

/-- Big-endian value of a byte list (used to state the claim's
"added with carry to the IV's low 64 bits" reading). -/
def beVal (l : List Nat) : Nat := l.foldl (fun a b => a * 256 + b) 0

/-- The counter block the claim text describes: IV low 64 bits plus
`i * (CHUNK_SIZE/16)`, carried within 64 bits. -/
def claimCounterBlock (iv : List Nat) (i : Nat) : List Nat :=
  iv.take 8 ++ be64 ((beVal (iv.drop 8) + i * blockPerChunkAES) % w64)

/-! ## Huffman codec (`core/huffman.go`)

`GoTree` mirrors the `*huffmanNode` pointer structure, `nil` included: a
leaf is a node with two `nil` children.  `buildFrequencyTable` is a Go map;
the model uses the canonical char-ascending association list.  The build
loop's ordering key `(freq, minChar)` is strict across the queue (every
element's `minChar` is the char of its leftmost leaf, and the elements'
leaf sets are disjoint), so the unstable `sort.Sort` and the map iteration
order cannot influence the resulting tree; the model sorts with the same
key. -/

inductive GoTree
  | nil
  | node (char freq minChar : Nat) (left right : GoTree)
deriving DecidableEq, Repr

def treeFreq : GoTree → Nat
  | .nil => 0
  | .node _ f _ _ _ => f

def treeMinChar : GoTree → Nat
  | .nil => 0
  | .node _ _ m _ _ => m

def leafOf (c f : Nat) : GoTree := .node c f c .nil .nil

/-- `nodeQueue.Less`: frequency ascending, ties by `minChar` ascending. -/
def nodeLess (a b : GoTree) : Bool :=
  if treeFreq a < treeFreq b then true
  else if treeFreq a > treeFreq b then false
  else treeMinChar a < treeMinChar b

/-- The merge loop of `buildHuffmanTree`: sort, merge the two front nodes
into a parent carrying `minChar := left.minChar`, repeat.  Each iteration
shrinks the queue by one, so `fuel = queue length` suffices. -/
def buildLoopF : Nat → List GoTree → GoTree
  | 0, _ => .nil
  | _ + 1, [] => .nil
  | _ + 1, [t] => t
  | fuel + 1, t1 :: t2 :: ts =>
      match insertionSort (fun a b => !nodeLess b a) (t1 :: t2 :: ts) with
      | a :: b :: rest =>
          buildLoopF fuel (rest ++ [.node 0 (treeFreq a + treeFreq b) (treeMinChar a) a b])
      | _ => .nil

def buildLoop (l : List GoTree) : GoTree := buildLoopF l.length l

/-- `buildHuffmanTree` on a frequency table given as a `(char, freq)` list
(the canonical char-ascending enumeration of the Go map). -/
def buildHuffmanTree (freqs : List (Nat × Nat)) : GoTree :=
  match freqs.map (fun p => leafOf p.1 p.2) with
  | [] => .nil
  | [t] => .node 0 (treeFreq t) (treeMinChar t) t .nil
  | pq => buildLoop pq

/-- `generateCodes` as an association list of `(char, bit path)`; a bare
leaf at the recursion root gets the single-bit code `0`. -/
def genCodes : GoTree → List Bool → List (Nat × List Bool)
  | .nil, _ => []
  | .node c _ _ .nil .nil, p => [(c, if p.isEmpty then [false] else p)]
  | .node _ _ _ l r, p => genCodes l (p ++ [false]) ++ genCodes r (p ++ [true])

def codeOf (codes : List (Nat × List Bool)) (b : Nat) : Option (List Bool) :=
  (codes.find? (fun e => e.1 == b)).map (fun e => e.2)

/-- Shape invariant of trees built by the merge loop: a leaf, or an inner
node whose two children are both present and well formed.  (The degenerate
single-entry root `node _ _ _ leaf nil` produced outside the loop does not
satisfy it and is handled separately.) -/
def wfTree : GoTree → Prop
  | .nil => False
  | .node _ _ _ .nil .nil => True
  | .node _ _ _ l r => wfTree l ∧ wfTree r

/-- Chars of the leaves, left to right. -/
def treeChars : GoTree → List Nat
  | .nil => []
  | .node c _ _ .nil .nil => [c]
  | .node _ _ _ l r => treeChars l ++ treeChars r

/-- All non-`nil` subtrees of a tree (the tree itself included). -/
def treeNodes : GoTree → List GoTree
  | .nil => []
  | .node c f m l r => .node c f m l r :: (treeNodes l ++ treeNodes r)

/-- Char of the leftmost leaf (following `left` children; the node's own
char once `left` is `nil`). -/
def leftmostChar : GoTree → Nat
  | .nil => 0
  | .node c _ _ .nil _ => c
  | .node _ _ _ (.node c2 f2 m2 l2 r2) _ => leftmostChar (.node c2 f2 m2 l2 r2)

/-! ### Bit packing (`bitWriter` / `bitReader`)

`bitWriter` packs most-significant-bit first, zero-padding the final byte;
`bitReader` consumes bytes in the same bit order, so reading through it is
consuming the flattened MSB-first bit list `bytesBits`. -/

def bitsVal (l : List Bool) : Nat :=
  l.foldl (fun a b => 2 * a + (if b then 1 else 0)) 0

/-- `bitWriter` state machine: `buffer |= 1 << (7-count)` per bit, flush at
count 8, final `Flush` emits the partial byte when nonempty. -/
def bitWriterRun : List Bool → Nat → Nat → List Nat
  | [], buffer, count => if count > 0 then [buffer] else []
  | bit :: rest, buffer, count =>
      let buffer2 := if bit then buffer ||| 2 ^ (7 - count) else buffer
      if count = 7 then buffer2 :: bitWriterRun rest 0 0
      else bitWriterRun rest buffer2 (count + 1)

def packBits (bits : List Bool) : List Nat := bitWriterRun bits 0 0

def byteBits (b : Nat) : List Bool :=
  [b.testBit 7, b.testBit 6, b.testBit 5, b.testBit 4,
   b.testBit 3, b.testBit 2, b.testBit 1, b.testBit 0]

def bytesBits (l : List Nat) : List Bool := l.flatMap byteBits

/-! ### Chunk compression / decompression -/

def huffmanChunkSizeC : Nat := 256 * 1024
def maxHuffmanChunkLenC : Nat := 4 * 1024 * 1024
def maxHuffmanHeaderLenC : Nat := 4096

def huffmanMagicB : List Nat := strBytes "HUFF"
def chunkMagicB : List Nat := strBytes "HCHK"

/-- Canonical frequency table of a chunk: distinct bytes ascending with
their occurrence counts. -/
def freqList (data : List Nat) : List (Nat × Nat) :=
  (insertionSort (fun a b => decide (a ≤ b)) data.dedup).map (fun b => (b, data.count b))

/-- `serializeFreqTable`: entry count as big-endian `uint16`, then per char
(ascending) one byte and a big-endian `uint64` frequency. -/
def serializeFreqTable (freqs : List (Nat × Nat)) : List Nat :=
  be16 freqs.length ++ freqs.flatMap (fun p => p.1 % 256 :: be64 p.2)

/-- `compressChunk`: empty chunks compress to no bytes; otherwise 8-byte
original length, 4-byte table length, the table, then the bit-packed code
stream. -/
def compressChunk (data : List Nat) : List Nat :=
  if data.isEmpty then []
  else
    let freqs := freqList data
    let tree := buildHuffmanTree freqs
    let codes := genCodes tree []
    let header := serializeFreqTable freqs
    let bits := data.flatMap (fun b => (codeOf codes b).getD [])
    be64 data.length ++ be32 header.length ++ header ++ packBits bits

def readFreqEntries : Nat → List Nat → Option (List (Nat × Nat) × List Nat)
  | 0, s => some ([], s)
  | _ + 1, [] => none
  | k + 1, c :: rest =>
      match readBeNat 8 rest with
      | none => none
      | some (f, rest2) =>
          match readFreqEntries k rest2 with
          | none => none
          | some (fs, r) => some ((c, f) :: fs, r)

/-- `deserializeFreqTable` behind an `io.LimitReader(limit)`: the reads
consume `2 + 9*count` bytes of the stream and fail if that exceeds the
limit (or the stream). -/
def deserializeFreqTable (limit : Nat) (s : List Nat) :
    Option (List (Nat × Nat) × List Nat) :=
  match readBeNat 2 s with
  | none => none
  | some (count, s1) =>
      if 2 + 9 * count > limit then none
      else readFreqEntries count s1

/-- Tree walk of the decoder for one symbol: descend on each bit until a
leaf; a `nil` child is a corrupt code, exhausted bits are an unexpected
EOF. -/
def decodeSym : GoTree → List Bool → Option (Nat × List Bool)
  | .nil, _ => none
  | .node c _ _ .nil .nil, bits => some (c, bits)
  | .node _ _ _ .nil (.node rc rf rm rl rr), bits =>
      match bits with
      | [] => none
      | bit :: rest =>
          if bit then decodeSym (.node rc rf rm rl rr) rest
          else none
  | .node _ _ _ (.node lc lf lm ll lr) r, bits =>
      match bits with
      | [] => none
      | bit :: rest =>
          if bit then
            match r with
            | .nil => none
            | .node rc rf rm rl rr => decodeSym (.node rc rf rm rl rr) rest
          else decodeSym (.node lc lf lm ll lr) rest

def decodeSymbols : Nat → GoTree → List Bool → Option (List Nat × List Bool)
  | 0, _, bits => some ([], bits)
  | n + 1, t, bits =>
      match decodeSym t bits with
      | none => none
      | some (c, bits2) =>
          match decodeSymbols n t bits2 with
          | none => none
          | some (cs, rest) => some (c :: cs, rest)

inductive HuffError
  | io
  | badOriginalLen
  | badHeaderLen
  | badTable
  | badTree
  | badCode
deriving DecidableEq, Repr

/-- `decompressChunk`: read and bound the original length and table length,
rebuild the table and tree, then decode exactly `original_len` symbols from
the bit stream (trailing pad bits are never examined). -/
def decompressChunk (chunkData : List Nat) : Except HuffError (List Nat) :=
  match readBeNat 8 chunkData with
  | none => .error .io
  | some (originalLen, s1) =>
      if originalLen = 0 then .ok []
      else if originalLen > huffmanChunkSizeC then .error .badOriginalLen
      else
        match readBeNat 4 s1 with
        | none => .error .io
        | some (headerLen, s2) =>
            if headerLen = 0 ∨ headerLen > maxHuffmanHeaderLenC then .error .badHeaderLen
            else
              match deserializeFreqTable headerLen s2 with
              | none => .error .badTable
              | some (freqs, s3) =>
                  match buildHuffmanTree freqs with
                  | .nil => .error .badTree
                  | t =>
                      match decodeSymbols originalLen t (bytesBits s3) with
                      | none => .error .badCode
                      | some (out, _) => .ok out

/-! ### `huffmanWriter.Close` (claim C8)

The close path, linearised by its `WaitGroup` joins: the final `flush(true)`
always enqueues the buffered bytes as one last job (an empty buffer becomes
an empty job, whose compressed frame is the 0-length end marker); then the
job channel closes; workers are joined; the result channel closes; the
aggregator — which emits every pending frame in ascending id order before
exiting — is joined; and only then does the deferred `w.Close()` close the
sink. -/

inductive CloseEvent
  | finalFlush (chunk : List Nat)
  | closeJobsChannel
  | joinWorkers
  | closeResultsChannel
  | emitFrame (id : Nat) (frame : List Nat)
  | joinAggregator
  | closeSink
deriving DecidableEq, Repr

def frameBytes (compressed : List Nat) : List Nat :=
  chunkMagicB ++ be32 compressed.length ++ compressed

/-- Ordered event trace of `huffmanWriter.Close`, starting from a state with
`pending` not-yet-emitted jobs (in id order, ids from `baseId`) and
`buffer` bytes accumulated since the last chunk dispatch. -/
def closeTrace (baseId : Nat) (pending : List (List Nat)) (buffer : List Nat) :
    List CloseEvent :=
  [.finalFlush buffer, .closeJobsChannel, .joinWorkers, .closeResultsChannel]
  ++ (List.enumFrom baseId (pending ++ [buffer])).map
      (fun p => .emitFrame p.1 (frameBytes (compressChunk p.2)))
  ++ [.joinAggregator, .closeSink]

/-! ## ChaCha20 (`core/crypto.go`, used by the reader pipe for algorithm 2)

Little-endian words, 20 rounds, 32-bit block counter; `SetCounter`
truncates to `uint32` and the parallel chunk size gives
`chunkSize/64 = 16384` blocks per chunk. -/

def rotl32 (x n : Nat) : Nat := x % 2 ^ (32 - n) * 2 ^ n + x / 2 ^ (32 - n)

def leWords : List Nat → List Nat
  | a :: b :: c :: d :: rest => (a + 256 * (b + 256 * (c + 256 * d))) :: leWords rest
  | _ => []

def leBytesOfWord (w : Nat) : List Nat :=
  [w % 256, w / 256 % 256, w / 2 ^ 16 % 256, w / 2 ^ 24 % 256]

def qrOn (s : List Nat) (ia ib ic id : Nat) : List Nat :=
  let a := s.getD ia 0
  let b := s.getD ib 0
  let c := s.getD ic 0
  let d := s.getD id 0
  let a1 := (a + b) % w32
  let d2 := rotl32 (d ^^^ a1) 16
  let c1 := (c + d2) % w32
  let b2 := rotl32 (b ^^^ c1) 12
  let a2 := (a1 + b2) % w32
  let d4 := rotl32 (d2 ^^^ a2) 8
  let c2 := (c1 + d4) % w32
  let b4 := rotl32 (b2 ^^^ c2) 7
  (((s.set ia a2).set ib b4).set ic c2).set id d4

def chachaBlock (key nonce : List Nat) (counter : Nat) : List Nat :=
  let st := [0x61707865, 0x3320646e, 0x79622d32, 0x6b206574]
    ++ leWords key ++ counter % w32 :: leWords nonce
  let working :=
    (List.range 10).foldl
      (fun s _ =>
        let s := qrOn s 0 4 8 12
        let s := qrOn s 1 5 9 13
        let s := qrOn s 2 6 10 14
        let s := qrOn s 3 7 11 15
        let s := qrOn s 0 5 10 15
        let s := qrOn s 1 6 11 12
        let s := qrOn s 2 7 8 13
        qrOn s 3 4 9 14)
      st
  (List.zipWith (fun x y => (x + y) % w32) working st).flatMap leBytesOfWord

def blockPerChunkChaCha : Nat := chunkSizeEnc / 64

/-- One parallel chunk through `ChaCha20Stream` (blocks consumed whole, the
`uint32` counter starting at `i * (chunkSize/64)` and incrementing). -/
def chachaChunkModel (key nonce : List Nat) (i : Nat) (data : List Nat) : List Nat :=
  let nBlocks := (data.length + 63) / 64
  let ks := (List.range nBlocks).flatMap
    (fun j => chachaBlock key nonce ((i * blockPerChunkChaCha + j) % w32))
  List.zipWith (fun x k => x ^^^ k) data ks

/-! ## Reader pipe and full-archive restore (`getReaderPipe`, `Restore`) -/

def xorChunkWithAlgo (algo : Nat) (key nonce : List Nat) (i : Nat)
    (data : List Nat) : List Nat :=
  if algo = 1 then encryptChunkModel key nonce i data
  else if algo = 2 then chachaChunkModel key nonce i data
  else data

/-- `newParallelStreamReaderWithPipe`: the producer reads `chunkSize`-byte
ciphertext chunks; each worker decrypts its chunk from the per-chunk
counter; the aggregator re-concatenates in id order. -/
def decryptBodyModel (algo : Nat) (key nonce ct : List Nat) : List Nat :=
  ((chunksOf chunkSizeEnc ct).enum.map
    (fun p => xorChunkWithAlgo algo key nonce p.1 p.2)).flatten

/-- Frame loop of `NewParallelCompressedReader` after the stream magic:
clean EOF at a frame boundary ends the stream, a zero-length frame is an
end marker, oversized frames and short reads are fatal. -/
def decompressFramesLoop : Nat → List Nat → Except HuffError (List Nat)
  | _, [] => .ok []
  | 0, _ :: _ => .error .io
  | fuel + 1, s@(_ :: _) =>
      if s.length < 8 then .error .io
      else if s.take 4 ≠ chunkMagicB then .error .io
      else
        let chunkLen := beVal ((s.drop 4).take 4)
        if chunkLen = 0 then .ok []
        else if chunkLen > maxHuffmanChunkLenC then .error .io
        else if (s.drop 8).length < chunkLen then .error .io
        else
          match decompressChunk ((s.drop 8).take chunkLen) with
          | .error e => .error e
          | .ok data =>
              match decompressFramesLoop fuel (s.drop (8 + chunkLen)) with
              | .error e => .error e
              | .ok rest => .ok (data ++ rest)

def decompressStreamModel (s : List Nat) : Except HuffError (List Nat) :=
  decompressFramesLoop (s.length + 1) s

inductive PipeError
  | passwordRequired
  | crypto (e : CryptoError)
  | unsupportedAlgorithm
  | invalidPassword
  | decompress (e : HuffError)
deriving DecidableEq, Repr

/-- `BackupManager.getReaderPipe`: peek for the encryption magic (and then
the compression magic), stacking the matching readers; for an encrypted,
uncompressed stream the first five plaintext bytes must look like an
archive header (`uint32` length in range followed by `{`), otherwise the
password is rejected early. -/
def getReaderPipeModel (s password : List Nat) : Except PipeError (List Nat) :=
  if magicHeaderB.isPrefixOf s then
    if password.isEmpty then .error .passwordRequired
    else
      match newDecryptedReaderModel s password with
      | .error e => .error (.crypto e)
      | .ok (algo, nonce, key, ct) =>
          if algo ≠ 1 ∧ algo ≠ 2 then .error .unsupportedAlgorithm
          else
            let plain := decryptBodyModel algo key nonce ct
            if huffmanMagicB.isPrefixOf plain then
              match decompressStreamModel (plain.drop 4) with
              | .error e => .error (.decompress e)
              | .ok out => .ok out
            else
              if plain.length < 5 then .error .invalidPassword
              else
                let headerLen := beVal (plain.take 4)
                if headerLen = 0 ∨ headerLen > maxArchiveHeaderLen
                    ∨ plain.getD 4 0 ≠ 123 then .error .invalidPassword
                else .ok plain
  else if huffmanMagicB.isPrefixOf s then
    match decompressStreamModel (s.drop 4) with
    | .error e => .error (.decompress e)
    | .ok out => .ok out
  else .ok s

inductive RestoreOpError
  | pipe (e : PipeError)
  | restore (e : RestoreError)
  | manifestUnreadable
  | chainBeyondModel
deriving DecidableEq, Repr

/-- `readManifest`: open a reader pipe, read the first entry; a manifest
entry's payload must unmarshal. -/
def readManifestModel (archive pw : List Nat) :
    Except RestoreOpError (Option BackupManifest) :=
  match getReaderPipeModel archive pw with
  | .error e => .error (.pipe e)
  | .ok stream =>
      match parseEntryHeader stream with
      | .error _ => .error .manifestUnreadable
      | .ok none => .ok none
      | .ok (some (meta, rest)) =>
          if meta.path ≠ manifestEntryPathB then .ok none
          else if meta.size < 0 then .error .manifestUnreadable
          else if rest.length < meta.size.toNat then .error .manifestUnreadable
          else
            match parseManifestJson (rest.take meta.size.toNat) with
            | none => .error .manifestUnreadable
            | some m => .ok (some m)

/-- `BackupManager.Restore` for an archive whose manifest is a full backup
(or absent / parentless), i.e. a restore chain of length one: resolve the
chain via `readManifest`, then run the single-archive restore into
`restoreDir`. -/
def restoreArchiveModel (archive pw : List Nat)
    (conflict : Option (List Nat → ConflictAction)) (now : Int) (fs0 : FS) :
    Except RestoreOpError FS :=
  match readManifestModel archive pw with
  | .error e => .error e
  | .ok m? =>
      match m? with
      | some m =>
          if m.type = .incremental ∧ m.parent ≠ [] then .error .chainBeyondModel
          else
            match getReaderPipeModel archive pw with
            | .error e => .error (.pipe e)
            | .ok stream =>
                match runRestoreModel conflict now fs0 stream with
                | .error e => .error (.restore e)
                | .ok fs => .ok fs
      | none =>
          match getReaderPipeModel archive pw with
          | .error e => .error (.pipe e)
          | .ok stream =>
              match runRestoreModel conflict now fs0 stream with
              | .error e => .error (.restore e)
              | .ok fs => .ok fs

/-! ## Task runner (`core/taskrunner.go`, claim C10)

Per-task runtime state is the `running`/`pending` flag pair guarded by the
runner mutex.  `runTaskInvoke` is the entry of `runTask` (up to the mutex
release): a running task only records `pending`; otherwise the task is
marked running and the executor starts.  `runTaskComplete` is the epilogue
after the executor returns: clear `running`, and launch exactly one
asynchronous rerun when `pending` was set.  The `Bool` component reports
whether an executor run was started by that step. -/

structure TaskFlags where
  running : Bool
  pending : Bool
deriving DecidableEq, Repr

def runTaskInvoke (st : TaskFlags) : TaskFlags × Bool :=
  if st.running then ({ st with pending := true }, false)
  else ({ st with running := true }, true)

def runTaskComplete (st : TaskFlags) : TaskFlags × Bool :=
  if st.pending then ({ running := false, pending := false }, true)
  else ({ st with running := false }, false)

/-- State after a burst of `n` `runTask` invocations arriving while an
execution is in flight. -/
def invokeBurst : TaskFlags → Nat → TaskFlags
  | st, 0 => st
  | st, n + 1 => invokeBurst (runTaskInvoke st).1 n

/-- Number of executor runs started by a burst of `n` invocations. -/
def invokeBurstStarts : TaskFlags → Nat → Nat
  | _, 0 => 0
  | st, n + 1 =>
      (if (runTaskInvoke st).2 then 1 else 0) + invokeBurstStarts (runTaskInvoke st).1 n

/-- Number of executor runs launched when the in-flight execution
completes. -/
def completionReruns (st : TaskFlags) : Nat :=
  if (runTaskComplete st).2 then 1 else 0

/-! ## A concrete round-trip scenario (claim C1)

One source root containing a regular file `f` (content `"x"`, mode `0644`,
modTime 100) and a symlink `l -> f` (lstat mode `ModeSymlink|0777`, modTime
200).  Backup with compression and encryption off; restore into an empty
directory.  Because `createDirOrLink` runs `os.Chmod`/`os.Chtimes` on the
symlink's path — both of which follow the link — the already-restored `f`
ends with the link's permission bits and modTime. -/

def c1Root : SrcNode :=
  { mode := modeDir + 0o755, mtime := 50, content := [], dest := [] }

def c1File : SrcNode :=
  { mode := 0o644, mtime := 100, content := strBytes "x", dest := [] }

def c1Link : SrcNode :=
  { mode := modeSymlink + 0o777, mtime := 200, content := [], dest := strBytes "f" }

def c1Children : List (List Nat × SrcNode) :=
  [(strBytes "f", c1File), (strBytes "l", c1Link)]

/-- The archive `Backup` produces for the scenario (no transforms). -/
def c1Archive : List Nat :=
  match backupArchiveBody c1Root c1Children 7 with
  | .ok b => b
  | .error _ => []

/-- The filesystem `Restore` leaves behind. -/
def c1FinalFs : FS :=
  match restoreArchiveModel c1Archive [] none 9 [] with
  | .ok fs => fs
  | .error _ => []

end DataBackup

/-! # Theorems -/

namespace DataBackup

/-! ## Generic byte-stream lemmas -/

theorem beBytes_length (k v : Nat) : (beBytes k v).length = k := by
  induction k generalizing v with
  | zero => rfl
  | succ k ih => simp [beBytes, ih]

theorem readBeNat_beBytes (k v : Nat) (rest : List Nat) :
    readBeNat k (beBytes k v ++ rest) = some (v % 256 ^ k, rest) := by
  induction k generalizing v with
  | zero => simp [beBytes, readBeNat, Nat.mod_one]
  | succ k ih =>
      have hsplit : v % 256 ^ (k + 1) = v / 256 ^ k % 256 * 256 ^ k + v % 256 ^ k := by
        have h256 : (256 : Nat) ^ (k + 1) = 256 ^ k * 256 := by ring
        rw [h256, Nat.mod_mul]
        ring
      simp only [beBytes, List.cons_append, readBeNat]
      rw [show (beBytes k v).append rest = beBytes k v ++ rest from rfl, ih, hsplit]

theorem readBeNat_beBytes_of_lt (k v : Nat) (rest : List Nat) (h : v < 256 ^ k) :
    readBeNat k (beBytes k v ++ rest) = some (v, rest) := by
  rw [readBeNat_beBytes, Nat.mod_eq_of_lt h]

theorem crc32Round_lt (c : Nat) (h : c < 2 ^ 32) : crc32Round c < 2 ^ 32 := by
  unfold crc32Round
  split
  · exact Nat.xor_lt_two_pow (by omega) (by norm_num [crc32Poly])
  · omega

theorem crc32Rounds_lt (k c : Nat) (h : c < 2 ^ 32) : crc32Rounds k c < 2 ^ 32 := by
  induction k generalizing c with
  | zero => exact h
  | succ k ih => exact ih _ (crc32Round_lt _ h)

theorem crc32Update_lt (data : List Nat) (hb : isBytes data) (c : Nat)
    (h : c < 2 ^ 32) : crc32Update c data < 2 ^ 32 := by
  induction data generalizing c with
  | nil => exact h
  | cons b t ih =>
      have hbb : b < 256 := hb b (by simp)
      have ht : isBytes t := fun x hx => hb x (by simp [hx])
      exact ih ht _ (crc32Rounds_lt 8 _ (Nat.xor_lt_two_pow h (by omega)))

theorem crc32_lt (data : List Nat) (hb : isBytes data) : crc32 data < 2 ^ 32 := by
  unfold crc32
  exact Nat.xor_lt_two_pow (crc32Update_lt data hb _ (by norm_num)) (by norm_num)

/-! ## Claim C10 — schedule coalescing in `runTask` -/

theorem invokeBurst_running (st : TaskFlags) (n : Nat) (h : st.running = true) :
    (invokeBurst st n).running = true ∧ invokeBurstStarts st n = 0
      ∧ (invokeBurst st n).pending = (st.pending || decide (0 < n)) := by
  induction n generalizing st with
  | zero => simp [invokeBurst, invokeBurstStarts, h]
  | succ n ih =>
      have hstep : runTaskInvoke st = ({ st with pending := true }, false) := by
        simp [runTaskInvoke, h]
      obtain ⟨h1, h2, h3⟩ := ih { st with pending := true } (by simp [h])
      refine ⟨?_, ?_, ?_⟩
      · simpa [invokeBurst, hstep] using h1
      · simp [invokeBurstStarts, hstep, h2]
      · simp only [invokeBurst, hstep] at h3 ⊢
        simp at h3
        simp [h3]

/-- C10: while a task is running, `runTask` only sets the pending flag and
returns without starting anything (`invokeBurstStarts = 0` for any burst),
and when the running execution completes at most one additional run is
launched, however many invocations arrived during the execution. -/
theorem c10_runTask_coalesces (st : TaskFlags) (n : Nat) (h : st.running = true) :
    runTaskInvoke st = ({ st with pending := true }, false)
      ∧ invokeBurstStarts st n = 0
      ∧ completionReruns (invokeBurst st n) ≤ 1
      ∧ (0 < n → completionReruns (invokeBurst st n) = 1) := by
  obtain ⟨h1, h2, h3⟩ := invokeBurst_running st n h
  refine ⟨by simp [runTaskInvoke, h], h2, ?_, ?_⟩
  · unfold completionReruns
    split <;> omega
  · intro hn
    have hp : (invokeBurst st n).pending = true := by
      rw [h3]; simp [hn]
    simp [completionReruns, runTaskComplete, hp]

theorem c10_runTask_coalesces_witness :
    ({ running := true, pending := false } : TaskFlags).running = true
      ∧ (runTaskInvoke { running := true, pending := false }
            = ({ running := true, pending := true }, false)
          ∧ invokeBurstStarts { running := true, pending := false } 3 = 0
          ∧ completionReruns (invokeBurst { running := true, pending := false } 3) ≤ 1
          ∧ (0 < 3 → completionReruns (invokeBurst { running := true, pending := false } 3) = 1)) :=
  ⟨by decide, c10_runTask_coalesces { running := true, pending := false } 3 (by decide)⟩

/-! ## Claim C4 — `NoFilesSelected` / `NoChanges` leave no destination file -/

/-- C4: a scan selecting zero files makes `Backup` fail with
`NoFilesSelected`, and an empty incremental diff makes `BackupIncremental`
fail with `NoChanges`; in both cases the failure happens before
`os.Create(destFile)`, so the destination is never created, for every
possible continuation of the pipeline. -/
theorem c4_no_dest_file_on_failure (sr : ScanResultM) (pm : BackupManifest)
    (sr2 : ScanResultM)
    (rest : ScanResultM → Except BackupError Unit)
    (rest2 : ScanResultM → List (List Nat) → List (List Nat) → Except BackupError Unit)
    (h0 : sr.selectedFileCount = 0)
    (hch : changedPaths pm.files sr2.files = [])
    (hdel : deletedPaths pm.files sr2.files = []) :
    backupControl (some sr) rest
        = { result := .error .noFilesSelected, destCreated := false }
      ∧ backupIncrementalControl (some pm) (some sr2) rest2
        = { result := .error .noChanges, destCreated := false } := by
  constructor
  · simp [backupControl, h0]
  · simp [backupIncrementalControl, hch, hdel]

theorem c4_no_dest_file_on_failure_witness :
    ({ jobs := [], files := [], selectedFileCount := 0, selectedBytes := 0 } :
        ScanResultM).selectedFileCount = 0
      ∧ changedPaths ([] : List ManifestFile) [] = []
      ∧ deletedPaths ([] : List ManifestFile) [] = []
      ∧ (backupControl
            (some { jobs := [], files := [], selectedFileCount := 0, selectedBytes := 0 })
            (fun _ => .ok ())
          = { result := .error .noFilesSelected, destCreated := false }
        ∧ backupIncrementalControl
            (some { version := 1, type := .full, createdAt := 0, parent := [], files := [] })
            (some { jobs := [], files := [], selectedFileCount := 0, selectedBytes := 0 })
            (fun _ _ _ => .ok ())
          = { result := .error .noChanges, destCreated := false }) := by
  refine ⟨by decide, by decide, by decide, ?_⟩
  exact c4_no_dest_file_on_failure
    { jobs := [], files := [], selectedFileCount := 0, selectedBytes := 0 }
    { version := 1, type := .full, createdAt := 0, parent := [], files := [] }
    { jobs := [], files := [], selectedFileCount := 0, selectedBytes := 0 }
    (fun _ => .ok ()) (fun _ _ _ => .ok ())
    (by decide) (by decide) (by decide)

/-! ## Insertion-sort helper lemmas -/

theorem mem_insertSorted {α : Type} (le : α → α → Bool) (y x : α) (l : List α) :
    x ∈ insertSorted le y l ↔ x = y ∨ x ∈ l := by
  induction l with
  | nil => simp [insertSorted]
  | cons a t ih =>
      simp only [insertSorted]
      split
      · simp
      · simp [ih]
        tauto

theorem mem_insertionSort {α : Type} (le : α → α → Bool) (x : α) (l : List α) :
    x ∈ insertionSort le l ↔ x ∈ l := by
  induction l with
  | nil => simp [insertionSort]
  | cons a t ih => simp [insertionSort, mem_insertSorted, ih]

theorem insertSorted_length {α : Type} (le : α → α → Bool) (y : α) (l : List α) :
    (insertSorted le y l).length = l.length + 1 := by
  induction l with
  | nil => simp [insertSorted]
  | cons a t ih =>
      simp only [insertSorted]
      split <;> simp [ih]

theorem insertionSort_length {α : Type} (le : α → α → Bool) (l : List α) :
    (insertionSort le l).length = l.length := by
  induction l with
  | nil => rfl
  | cons a t ih => simp [insertionSort, insertSorted_length, ih]

/-! ## Claim C5 — the incremental diff sets -/

/-- Field-level characterisation of `equalForDiff`. -/
theorem equalForDiff_iff (a b : ManifestFile) :
    equalForDiff a b = true ↔
      (a.path = b.path ∧ a.isDir = b.isDir ∧ a.isLink = b.isLink ∧ a.mode = b.mode
        ∧ (if a.isLink then a.linkDest = b.linkDest
           else if a.isDir then True
           else a.size = b.size ∧ a.modTime = b.modTime)) := by
  obtain ⟨ap, asz, am, amt, ad, al, ald⟩ := a
  obtain ⟨bp, bsz, bm, bmt, bd, bl, bld⟩ := b
  unfold equalForDiff
  simp only
  cases ad <;> cases bd <;> cases al <;> cases bl <;> simp_all

theorem equalForDiff_false_of_type_change (a b : ManifestFile)
    (h : a.isDir ≠ b.isDir ∨ a.isLink ≠ b.isLink) : equalForDiff a b = false := by
  rcases h with h | h <;>
    · rw [Bool.eq_false_iff]
      intro hc
      rw [equalForDiff_iff] at hc
      exact h (by tauto)

/-- C5 (amended): against the embedded diff, `changed` is exactly the
current paths that are new or fail `equalForDiff` (with `equalForDiff`
comparing mode+type+linkDest for links, mode+type for dirs, and
mode+size+modTime for files); `deleted` is the paths present in the parent
and either absent from the current scan **or present with a changed
dir/link type**; and a type change puts the path in both sets. -/
theorem c5_diff_sets (parentFiles curFiles : List ManifestFile) (p : List Nat) :
    (inDeletedSet parentFiles curFiles p = true ↔
        ((mfLookup parentFiles p).isSome = true ∧
          (mfLookup curFiles p = none ∨
            (∃ prev cur, mfLookup parentFiles p = some prev
              ∧ mfLookup curFiles p = some cur
              ∧ (cur.isDir ≠ prev.isDir ∨ cur.isLink ≠ prev.isLink)))))
    ∧ (inChangedSet parentFiles curFiles p = true ↔
        (∃ cur, mfLookup curFiles p = some cur ∧
          (mfLookup parentFiles p = none ∨
            (∃ prev, mfLookup parentFiles p = some prev
              ∧ equalForDiff cur prev = false))))
    ∧ (∀ prev cur, mfLookup parentFiles p = some prev →
        mfLookup curFiles p = some cur →
        (cur.isDir ≠ prev.isDir ∨ cur.isLink ≠ prev.isLink) →
        inDeletedSet parentFiles curFiles p = true
          ∧ inChangedSet parentFiles curFiles p = true)
    ∧ (∀ a b : ManifestFile, equalForDiff a b = true ↔
        (a.path = b.path ∧ a.isDir = b.isDir ∧ a.isLink = b.isLink ∧ a.mode = b.mode
          ∧ (if a.isLink then a.linkDest = b.linkDest
             else if a.isDir then True
             else a.size = b.size ∧ a.modTime = b.modTime))) := by
  refine ⟨?_, ?_, ?_, fun a b => equalForDiff_iff a b⟩
  · unfold inDeletedSet
    cases hp : mfLookup parentFiles p with
    | none => simp
    | some prev =>
        cases hc : mfLookup curFiles p with
        | none => simp
        | some cur =>
            simp only [Option.isSome_some, true_and]
            constructor
            · intro h
              rw [Bool.and_eq_true] at h
              refine Or.inr ⟨prev, cur, rfl, rfl, ?_⟩
              rcases Bool.or_eq_true _ _ |>.mp h.2 with h2 | h2
              · exact Or.inl (of_decide_eq_true h2)
              · exact Or.inr (of_decide_eq_true h2)
            · rintro (h | ⟨prev2, cur2, hp2, hc2, hty⟩)
              · exact absurd h (by simp)
              · obtain rfl : prev2 = prev := by injection hp2 with h; exact h.symm
                obtain rfl : cur2 = cur := by injection hc2 with h; exact h.symm
                rw [Bool.and_eq_true]
                refine ⟨?_, ?_⟩
                · rw [Bool.not_eq_eq_eq_not, Bool.not_true]
                  exact equalForDiff_false_of_type_change _ _ (by tauto)
                · rw [Bool.or_eq_true]
                  rcases hty with h | h
                  · exact Or.inl (decide_eq_true h)
                  · exact Or.inr (decide_eq_true h)
  · unfold inChangedSet
    cases hc : mfLookup curFiles p with
    | none => simp
    | some cur =>
        cases hp : mfLookup parentFiles p with
        | none => simp
        | some prev =>
            constructor
            · intro h
              refine ⟨cur, rfl, Or.inr ⟨prev, rfl, ?_⟩⟩
              rwa [Bool.not_eq_eq_eq_not, Bool.not_true] at h
            · rintro ⟨cur2, hc2, h | ⟨prev2, hp2, heq⟩⟩
              · exact absurd h (by simp)
              · obtain rfl : cur2 = cur := by injection hc2 with h; exact h.symm
                obtain rfl : prev2 = prev := by injection hp2 with h; exact h.symm
                rw [Bool.not_eq_eq_eq_not, Bool.not_true]
                exact heq
  · intro prev cur hp hc hty
    constructor
    · unfold inDeletedSet
      rw [hp, hc]
      rw [Bool.and_eq_true]
      refine ⟨?_, ?_⟩
      · rw [Bool.not_eq_eq_eq_not, Bool.not_true]
        exact equalForDiff_false_of_type_change _ _ (by tauto)
      · rw [Bool.or_eq_true]
        rcases hty with h | h
        · exact Or.inl (decide_eq_true h)
        · exact Or.inr (decide_eq_true h)
    · unfold inChangedSet
      rw [hc, hp]
      rw [Bool.not_eq_eq_eq_not, Bool.not_true]
      exact equalForDiff_false_of_type_change _ _ (by tauto)

theorem c5_diff_sets_witness :
    (mfLookup
        [{ path := [97], size := 0, mode := 2 ^ 31 + 0o755, modTime := 0,
           isDir := true, isLink := false, linkDest := [] }] [97]
      = some { path := [97], size := 0, mode := 2 ^ 31 + 0o755, modTime := 0,
               isDir := true, isLink := false, linkDest := [] })
    ∧ (inDeletedSet
          [{ path := [97], size := 0, mode := 2 ^ 31 + 0o755, modTime := 0,
             isDir := true, isLink := false, linkDest := [] }]
          [{ path := [97], size := 1, mode := 0o644, modTime := 3,
             isDir := false, isLink := false, linkDest := [] }] [97] = true
        ∧ inChangedSet
          [{ path := [97], size := 0, mode := 2 ^ 31 + 0o755, modTime := 0,
             isDir := true, isLink := false, linkDest := [] }]
          [{ path := [97], size := 1, mode := 0o644, modTime := 3,
             isDir := false, isLink := false, linkDest := [] }] [97] = true) := by
  refine ⟨by decide, ?_⟩
  exact (c5_diff_sets
    [{ path := [97], size := 0, mode := 2 ^ 31 + 0o755, modTime := 0,
       isDir := true, isLink := false, linkDest := [] }]
    [{ path := [97], size := 1, mode := 0o644, modTime := 3,
       isDir := false, isLink := false, linkDest := [] }] [97]).2.2.1
    { path := [97], size := 0, mode := 2 ^ 31 + 0o755, modTime := 0,
      isDir := true, isLink := false, linkDest := [] }
    { path := [97], size := 1, mode := 0o644, modTime := 3,
      isDir := false, isLink := false, linkDest := [] }
    (by decide) (by decide) (by decide)

/-- C5 (counterexample to the claim as stated): with a parent entry `a` that
is a directory and a current entry `a` that is a regular file, the path `a`
is in the deleted set although it **is** present in the current scan — so
the deleted set is not "exactly the paths present in the parent but not in
the current scan". -/
theorem c5_deleted_not_exactly_parent_minus_current :
    ¬ (∀ (parentFiles curFiles : List ManifestFile) (p : List Nat),
        inDeletedSet parentFiles curFiles p = true ↔
          ((mfLookup parentFiles p).isSome = true ∧ mfLookup curFiles p = none)) := by
  intro h
  have h2 := (h
    [{ path := [97], size := 0, mode := 2 ^ 31 + 0o755, modTime := 0,
       isDir := true, isLink := false, linkDest := [] }]
    [{ path := [97], size := 1, mode := 0o644, modTime := 3,
       isDir := false, isLink := false, linkDest := [] }] [97]).mp (by decide)
  exact absurd h2.2 (by decide)

/-! ## Claim C9 — the tree builder's `minChar` and queue ordering -/

theorem treeNodes_node (c f m : Nat) (l r : GoTree) :
    treeNodes (.node c f m l r) = .node c f m l r :: (treeNodes l ++ treeNodes r) := rfl

theorem leftmostChar_node (c f m : Nat) (l r : GoTree) (hl : l ≠ .nil) :
    leftmostChar (.node c f m l r) = leftmostChar l := by
  cases l with
  | nil => exact absurd rfl hl
  | node c2 f2 m2 l2 r2 => rfl

theorem self_mem_treeNodes (t : GoTree) (h : t ≠ .nil) : t ∈ treeNodes t := by
  cases t with
  | nil => exact absurd rfl h
  | node c f m l r => simp [treeNodes]

/-- Queue invariant of the merge loop: all queue elements are non-`nil` and
every node in them carries the char of its leftmost leaf as `minChar`. -/
theorem buildLoopF_minChar (fuel : Nat) (q : List GoTree)
    (hq : ∀ t ∈ q, t ≠ .nil ∧ ∀ u ∈ treeNodes t, treeMinChar u = leftmostChar u) :
    ∀ u ∈ treeNodes (buildLoopF fuel q), treeMinChar u = leftmostChar u := by
  induction fuel generalizing q with
  | zero => intro u hu; simp [buildLoopF, treeNodes] at hu
  | succ fuel ih =>
      match q with
      | [] => intro u hu; simp [buildLoopF, treeNodes] at hu
      | [t] =>
          intro u hu
          exact (hq t (by simp)).2 u (by simpa [buildLoopF] using hu)
      | t1 :: t2 :: ts =>
          cases hs : insertionSort (fun a b => !nodeLess b a) (t1 :: t2 :: ts) with
          | nil =>
              intro u hu
              simp [buildLoopF, hs, treeNodes] at hu
          | cons a tail =>
              cases tail with
              | nil =>
                  intro u hu
                  simp [buildLoopF, hs, treeNodes] at hu
              | cons b rest =>
                  have hmem : ∀ t, t ∈ a :: b :: rest → t ∈ t1 :: t2 :: ts := by
                    intro t ht
                    have : t ∈ insertionSort (fun a b => !nodeLess b a) (t1 :: t2 :: ts) := by
                      rw [hs]; exact ht
                    exact (mem_insertionSort _ _ _).mp this
                  have ha := hq a (hmem a (by simp))
                  have hb := hq b (hmem b (by simp))
                  have hstep :
                      buildLoopF (fuel + 1) (t1 :: t2 :: ts)
                        = buildLoopF fuel
                            (rest ++ [.node 0 (treeFreq a + treeFreq b) (treeMinChar a) a b]) := by
                    rw [buildLoopF, hs]
                  rw [hstep]
                  apply ih
                  intro t ht
                  rcases List.mem_append.mp ht with hrest | hpar
                  · exact hq t (hmem t (by simp [hrest]))
                  · have hpar2 : t = .node 0 (treeFreq a + treeFreq b) (treeMinChar a) a b := by
                      simpa using hpar
                    subst hpar2
                    refine ⟨by simp, ?_⟩
                    intro u hu
                    rw [treeNodes_node] at hu
                    rcases List.mem_cons.mp hu with hu | hu
                    · subst hu
                      show treeMinChar a = _
                      rw [leftmostChar_node _ _ _ _ _ ha.1]
                      exact ha.2 a (self_mem_treeNodes a ha.1)
                    · rcases List.mem_append.mp hu with hu | hu
                      · exact ha.2 u hu
                      · exact hb.2 u hu

/-- C9 (amended): the queue ordering of the tree builder is by frequency
ascending with ties broken by `minChar` ascending, and every node of every
tree built by `buildHuffmanTree` carries as `minChar` the char of the
**leftmost leaf** of its subtree (the char of its left child's subtree) —
not, as the claim stated, the minimum byte value of the whole subtree. -/
theorem c9_minChar_leftmost_and_ordering :
    (∀ a b : GoTree, nodeLess a b = true ↔
        (treeFreq a < treeFreq b
          ∨ (treeFreq a = treeFreq b ∧ treeMinChar a < treeMinChar b)))
    ∧ (∀ freqs : List (Nat × Nat), ∀ u ∈ treeNodes (buildHuffmanTree freqs),
        treeMinChar u = leftmostChar u) := by
  constructor
  · intro a b
    unfold nodeLess
    split_ifs <;> simp <;> omega
  · intro freqs
    have hleaf : ∀ (p : Nat × Nat), leafOf p.1 p.2 ≠ .nil
        ∧ ∀ u ∈ treeNodes (leafOf p.1 p.2), treeMinChar u = leftmostChar u := by
      intro p
      refine ⟨by simp [leafOf], ?_⟩
      intro u hu
      simp [leafOf, treeNodes] at hu
      subst hu
      rfl
    match hf : freqs with
    | [] => intro u hu; simp [buildHuffmanTree, treeNodes] at hu
    | [p] =>
        intro u hu
        simp only [buildHuffmanTree, List.map] at hu
        rw [treeNodes_node] at hu
        rcases List.mem_cons.mp hu with hu | hu
        · subst hu
          show treeMinChar (leafOf p.1 p.2) = _
          rw [leftmostChar_node _ _ _ _ _ (by simp [leafOf])]
          rfl
        · rcases List.mem_append.mp hu with hu | hu
          · exact (hleaf p).2 u hu
          · simp [treeNodes] at hu
    | p1 :: p2 :: ps =>
        intro u hu
        have : buildHuffmanTree (p1 :: p2 :: ps)
            = buildLoop (leafOf p1.1 p1.2 :: leafOf p2.1 p2.2
                :: ps.map (fun p => leafOf p.1 p.2)) := rfl
        rw [this] at hu
        refine buildLoopF_minChar _ _ ?_ u hu
        intro t ht
        simp only [List.mem_cons, List.mem_map] at ht
        rcases ht with rfl | rfl | ⟨p, _, rfl⟩
        · exact hleaf p1
        · exact hleaf p2
        · exact hleaf p

/-- C9 (counterexample to the claim as stated): for the frequency table
`{3 ↦ 2, 5 ↦ 1}` the root of the built tree has `minChar = 5`, while the
minimum byte value in its subtree (chars `[5, 3]`) is `3`. -/
theorem c9_minChar_not_subtree_min :
    treeMinChar (buildHuffmanTree [(3, 2), (5, 1)]) = 5
      ∧ treeChars (buildHuffmanTree [(3, 2), (5, 1)]) = [5, 3]
      ∧ (treeChars (buildHuffmanTree [(3, 2), (5, 1)])).foldr min 255 = 3
      ∧ treeMinChar (buildHuffmanTree [(3, 2), (5, 1)])
          ≠ (treeChars (buildHuffmanTree [(3, 2), (5, 1)])).foldr min 255 := by
  decide

/-! ## Claim C7 — AES-CTR per-chunk counter blocks -/

theorem iterate_generateKeystream (s : AESCTRStreamSt) (n : Nat)
    (h : s.counter < w64) :
    (generateKeystreamModel^[n] s).counter = (s.counter + n) % w64
      ∧ (generateKeystreamModel^[n] s).iv = s.iv := by
  induction n with
  | zero => simpa using (Nat.mod_eq_of_lt h).symm
  | succ n ih =>
      rw [Function.iterate_succ_apply']
      refine ⟨?_, ih.2⟩
      show ((generateKeystreamModel^[n] s).counter + 1) % w64 = (s.counter + (n + 1)) % w64
      rw [ih.1]
      simp only [w64]
      omega

/-- C7 (amended): after the worker's `SetCounter(i * (CHUNK_SIZE/16))` the
counter block consumed by the `n`-th keystream generation is the IV with its
last 8 bytes **replaced** by the big-endian encoding of
`(i * (CHUNK_SIZE/16) + n) mod 2^64`; each subsequent block increments the
counter by one (modulo 2^64). -/
theorem c7_counter_block_replaces_iv_low (key iv : List Nat) (i n : Nat) :
    nthCounterBlockUsed key iv i n
      = iv.take 8 ++ be64 ((i * blockPerChunkAES + n) % w64) := by
  have h0 : (setCounterModel (mkAESCTRStream key iv) (i * blockPerChunkAES)).counter
      = i * blockPerChunkAES % w64 := rfl
  have hlt : (setCounterModel (mkAESCTRStream key iv) (i * blockPerChunkAES)).counter
      < w64 := by
    rw [h0]; exact Nat.mod_lt _ (by norm_num [w64])
  obtain ⟨hc, hiv⟩ := iterate_generateKeystream
    (setCounterModel (mkAESCTRStream key iv) (i * blockPerChunkAES)) n hlt
  show aesCtrCounterBlock _ _ = _
  unfold aesCtrCounterBlock
  rw [hc, hiv, h0]
  have heq : (i * blockPerChunkAES % w64 + n) % w64
      = (i * blockPerChunkAES + n) % w64 := by
    simp only [w64]
    omega
  rw [heq]
  rfl

/-- C7 (counterexample to the claim as stated): with an IV whose low 64 bits
are 1 and chunk id 0, the first counter block is the IV with its low 8 bytes
replaced by zero — not the IV with `0 * (CHUNK_SIZE/16)` added with carry to
its low 64 bits (which would leave the IV unchanged). -/
theorem c7_counter_block_not_add_with_carry :
    nthCounterBlockUsed (List.range 32)
        [0, 0, 0, 0, 0, 0, 0, 0, 0, 0, 0, 0, 0, 0, 0, 1] 0 0
      ≠ claimCounterBlock [0, 0, 0, 0, 0, 0, 0, 0, 0, 0, 0, 0, 0, 0, 0, 1] 0 := by
  decide

/-! ## Claim C2 — CRC coverage of regular-file entries -/

theorem parseEntryHeader_ne_nil (s : List Nat) (h : s ≠ []) :
    parseEntryHeader s
      = match readBeNat 4 s with
        | none => .error .readEntry
        | some (hl, rest) =>
            if hl = 0 ∨ hl > maxArchiveHeaderLen then .error .headerLenOutOfRange
            else if rest.length < hl then .error .shortHeader
            else
              match parseMetaJson (rest.take hl) with
              | none => .error .badHeaderJson
              | some meta => .ok (some (meta, rest.drop hl)) := by
  cases s with
  | nil => exact absurd rfl h
  | cons a t => rfl

/-- A well-framed entry header (4-byte big-endian length, then that many
bytes of parseable JSON) is accepted by `NextEntry` and hands the remaining
stream on unchanged. -/
theorem parseEntryHeader_frame (hdr rest : List Nat) (meta : FileMetadata)
    (hne : 0 < hdr.length) (hmax : hdr.length ≤ maxArchiveHeaderLen)
    (hp : parseMetaJson hdr = some meta) :
    parseEntryHeader (be32 hdr.length ++ hdr ++ rest) = .ok (some (meta, rest)) := by
  have hlen : (be32 hdr.length ++ hdr ++ rest).length
      = 4 + hdr.length + rest.length := by
    simp [be32, beBytes_length, Nat.add_assoc]
  have hnil : be32 hdr.length ++ hdr ++ rest ≠ [] := by
    intro hcontra
    rw [hcontra] at hlen
    simp at hlen
    omega
  rw [parseEntryHeader_ne_nil _ hnil]
  rw [List.append_assoc, be32,
    readBeNat_beBytes_of_lt 4 hdr.length (hdr ++ rest)
      (by unfold maxArchiveHeaderLen at hmax; omega)]
  have hcond : ¬(hdr.length = 0 ∨ hdr.length > maxArchiveHeaderLen) := by
    push_neg
    exact ⟨by omega, hmax⟩
  dsimp only
  rw [if_neg hcond]
  rw [if_neg (by simp only [List.length_append]; omega)]
  rw [List.take_left, List.drop_left, hp]

/-- C2: an entry written with `hasCrc = true` for a non-deleted regular file
carries, after its payload, the 4-byte big-endian CRC32-IEEE of the payload
exactly as written; and on restore, a regular-file `hasCrc` entry whose
recomputed payload CRC differs from the stored trailing value makes the
restore fail with the CRC-mismatch error. -/
theorem c2_crc_written_and_checked
    (meta : FileMetadata) (d : List Nat) (c : Nat) (more : List Nat)
    (conflict : Option (List Nat → ConflictAction)) (now : Int) (fs : FS)
    (hreg : modeIsRegular meta.mode = true)
    (hcrc : meta.hasCrc = true) (hdel : meta.deleted = false)
    (hsize : meta.size = (d.length : Int)) (hpos : 0 < d.length)
    (hint : isInternalPath meta.path = false)
    (hlink : meta.isLink = false) (hdir : meta.isDir = false)
    (hparse : parseMetaJson (jsonMarshalMeta meta) = some meta)
    (hmax : (jsonMarshalMeta meta).length ≤ maxArchiveHeaderLen)
    (hc32 : c < 2 ^ 32) (hbad : crc32 d ≠ c) :
    writeEntry meta (some d)
        = .ok (be32 (jsonMarshalMeta meta).length ++ jsonMarshalMeta meta
            ++ d ++ be32 (crc32 d))
      ∧ runRestoreModel conflict now fs
            (be32 (jsonMarshalMeta meta).length ++ jsonMarshalMeta meta
              ++ (d ++ be32 c ++ more))
          = .error .crcMismatch := by
  have hne : 0 < (jsonMarshalMeta meta).length := by
    simp [jsonMarshalMeta]
  constructor
  · unfold writeEntry
    simp only [hcrc, hreg, hdel, hsize]
    have h0 : (0 : Int) < (d.length : Int) := by exact_mod_cast hpos
    rw [if_pos h0, if_neg (lt_irrefl _)]
    rw [Int.toNat_natCast, List.take_length]
    simp
  · have hdisp : restoreDispatch conflict now fs meta (d ++ be32 c ++ more)
        = .error .crcMismatch := by
      unfold restoreDispatch
      dsimp only
      rw [if_neg (by simp [hint]), if_neg (by simp [hdel]),
        if_neg (by simp [hlink, hdir]), if_pos (by simp [hreg]),
        if_pos (by simp [hcrc])]
      rw [hsize, Int.toNat_natCast]
      rw [List.append_assoc, List.take_left, List.drop_left]
      rw [show be32 c = beBytes 4 c from rfl,
        readBeNat_beBytes_of_lt 4 c more hc32]
      dsimp only
      rw [if_pos hbad]
    unfold runRestoreModel
    rw [runRestoreLoop]
    rw [parseEntryHeader_frame _ _ _ hne hmax hparse]
    dsimp only
    rw [hdisp]

/-- C2 witness: a concrete one-entry archive for path `"a"`, payload `"A"`,
stored CRC `0`. -/
theorem c2_crc_written_and_checked_witness :
    writeEntry
        { path := [97], size := 1, mode := 420, modTime := 0, isDir := false,
          isLink := false, linkDest := [], hasCrc := true, deleted := false }
        (some [65])
        = .ok (be32 (jsonMarshalMeta
              { path := [97], size := 1, mode := 420, modTime := 0, isDir := false,
                isLink := false, linkDest := [], hasCrc := true, deleted := false }).length
            ++ jsonMarshalMeta
              { path := [97], size := 1, mode := 420, modTime := 0, isDir := false,
                isLink := false, linkDest := [], hasCrc := true, deleted := false }
            ++ [65] ++ be32 (crc32 [65]))
      ∧ runRestoreModel none 0 []
            (be32 (jsonMarshalMeta
                { path := [97], size := 1, mode := 420, modTime := 0, isDir := false,
                  isLink := false, linkDest := [], hasCrc := true, deleted := false }).length
              ++ jsonMarshalMeta
                { path := [97], size := 1, mode := 420, modTime := 0, isDir := false,
                  isLink := false, linkDest := [], hasCrc := true, deleted := false }
              ++ ([65] ++ be32 0 ++ []))
          = .error .crcMismatch :=
  c2_crc_written_and_checked
    { path := [97], size := 1, mode := 420, modTime := 0, isDir := false,
      isLink := false, linkDest := [], hasCrc := true, deleted := false }
    [65] 0 [] none 0 []
    (by decide) (by decide) (by decide) (by decide) (by decide) (by decide)
    (by decide) (by decide) (by decide) (by decide) (by decide) (by decide)

/-! ## Claim C3 — v2 header MAC check fails fast with InvalidPassword -/

/-- C3: on a version-2 encrypted stream the reader derives the key from the
password and salt, recomputes `HMAC-SHA-256(key, magic ‖ version ‖ algo ‖
saltLen ‖ salt ‖ nonceLen ‖ nonce)` and compares it with the stored 32-byte
MAC: a match yields the cipher parameters, a mismatch is `InvalidPassword` —
in either case without looking at a single byte past the header (the result
does not depend on `rest`). -/
theorem c3_v2_mac_check_fail_fast (algo : Nat) (salt nonce mac rest password : List Nat)
    (hmac : mac.length = 32) (hpw : password ≠ []) :
    newDecryptedReaderModel
        (magicHeaderB ++ 2 :: algo :: salt.length ::
          (salt ++ nonce.length :: (nonce ++ (mac ++ rest)))) password
      = if mac = prf (deriveKey password salt)
            (magicHeaderB ++ 2 :: algo :: salt.length :: salt ++ nonce.length :: nonce)
        then .ok (algo, nonce, deriveKey password salt, rest)
        else .error .invalidPassword := by
  have hm8 : magicHeaderB.length = 8 := by decide
  have htake : (magicHeaderB ++ 2 :: algo :: salt.length ::
      (salt ++ nonce.length :: (nonce ++ (mac ++ rest)))).take 8 = magicHeaderB := by
    rw [← hm8, List.take_left]
  have hdrop : (magicHeaderB ++ 2 :: algo :: salt.length ::
      (salt ++ nonce.length :: (nonce ++ (mac ++ rest)))).drop 8
      = 2 :: algo :: salt.length ::
          (salt ++ nonce.length :: (nonce ++ (mac ++ rest))) := by
    rw [← hm8, List.drop_left]
  unfold newDecryptedReaderModel
  rw [if_neg (by simp [List.isEmpty_iff])]
  rw [if_neg (by simp only [List.length_append, List.length_cons, hm8]; omega)]
  rw [if_neg (not_not_intro htake)]
  rw [if_neg (by simp [List.isEmpty_iff]; exact hpw)]
  rw [hdrop]
  dsimp only
  rw [if_neg (by decide)]
  rw [if_neg (by simp only [List.length_append, List.length_cons]; omega)]
  rw [List.take_left, List.drop_left]
  dsimp only
  rw [if_neg (by simp only [List.length_append]; omega)]
  rw [List.take_left, List.drop_left]
  rw [if_pos (by omega)]
  rw [if_neg (by simp only [List.length_append]; omega)]
  rw [show (mac ++ rest).take 32 = mac from by rw [← hmac, List.take_left]]
  rw [show (mac ++ rest).drop 32 = rest from by rw [← hmac, List.drop_left]]
  by_cases hm : mac = prf (deriveKey password salt)
      (magicHeaderB ++ 2 :: algo :: salt.length :: salt ++ nonce.length :: nonce)
  · rw [if_pos hm, if_neg (not_not_intro hm)]
  · rw [if_neg hm, if_pos hm]

/-- C3 witness: empty salt and nonce, an all-zero stored MAC, one trailing
ciphertext byte. -/
theorem c3_v2_mac_check_fail_fast_witness :
    newDecryptedReaderModel
        (magicHeaderB ++ 2 :: 1 :: (0 : Nat) ::
          (([] : List Nat) ++ (0 : Nat) ::
            (([] : List Nat) ++ (List.replicate 32 0 ++ [7])))) [97]
      = if List.replicate 32 0 = prf (deriveKey [97] [])
            (magicHeaderB ++ 2 :: 1 :: (0 : Nat) :: ([] : List Nat)
              ++ (0 : Nat) :: ([] : List Nat))
        then .ok (1, ([] : List Nat), deriveKey [97] [], [7])
        else .error .invalidPassword :=
  c3_v2_mac_check_fail_fast 1 [] [] (List.replicate 32 0) [7] [97]
    (by decide) (by decide)

/-! ## Claim C1 — metadata round-trip through backup and restore -/

set_option maxRecDepth 10000 in
/-- C1 (refuted): for the source tree `{f: regular file "x", perm 0644,
modTime 100; l: symlink → f, perm 0777, modTime 200}` with no filters, no
compression and no encryption, the backup succeeds and the restore into an
empty target succeeds and recreates the symlink — but the regular file `f`
ends up with perm `511 = 0o777` and modTime `200`, the **symlink's**
metadata, instead of its own `420 = 0o644` and `100`: `createDirOrLink`
applies `os.Chmod`/`os.Chtimes` to the symlink's path, and both follow the
link to `f`, clobbering the metadata `writeFileFromPipe` had just set. -/
theorem c1_restore_clobbers_file_metadata :
    backupArchiveBody c1Root c1Children 7 = .ok c1Archive
      ∧ restoreArchiveModel c1Archive [] none 9 [] = .ok c1FinalFs
      ∧ fsGet c1FinalFs (strBytes "f") = some (.file (strBytes "x") 511 200)
      ∧ fsGet c1FinalFs (strBytes "l") = some (.link (strBytes "f"))
      ∧ modePerm c1File.mode = 420
      ∧ c1File.mtime = 100
      ∧ fsGet c1FinalFs (strBytes "f")
          ≠ some (.file c1File.content (modePerm c1File.mode) c1File.mtime) := by
  decide

/-! ## Claims C6 and C8 — the Huffman codec

### Bit packing: the writer's byte stream replays as the bit list plus a
zero pad -/

theorem bitWriter_block (b0 b1 b2 b3 b4 b5 b6 b7 : Bool) (rest : List Bool) :
    bitWriterRun (b0 :: b1 :: b2 :: b3 :: b4 :: b5 :: b6 :: b7 :: rest) 0 0
      = bitsVal [b0, b1, b2, b3, b4, b5, b6, b7] :: bitWriterRun rest 0 0
    ∧ byteBits (bitsVal [b0, b1, b2, b3, b4, b5, b6, b7])
      = [b0, b1, b2, b3, b4, b5, b6, b7] := by
  cases b0 <;> cases b1 <;> cases b2 <;> cases b3 <;>
    cases b4 <;> cases b5 <;> cases b6 <;> cases b7 <;>
    exact ⟨by simp [bitWriterRun, bitsVal], by decide⟩

theorem bitWriter_tail : ∀ (bits : List Bool), bits.length < 8 →
    bytesBits (bitWriterRun bits 0 0)
      = bits ++ List.replicate ((8 - bits.length % 8) % 8) false := by
  intro bits
  match bits with
  | [] => intro _; decide
  | [b0] => intro _; cases b0 <;> decide
  | [b0, b1] => intro _; cases b0 <;> cases b1 <;> decide
  | [b0, b1, b2] => intro _; cases b0 <;> cases b1 <;> cases b2 <;> decide
  | [b0, b1, b2, b3] =>
      intro _; cases b0 <;> cases b1 <;> cases b2 <;> cases b3 <;> decide
  | [b0, b1, b2, b3, b4] =>
      intro _; cases b0 <;> cases b1 <;> cases b2 <;> cases b3 <;> cases b4 <;> decide
  | [b0, b1, b2, b3, b4, b5] =>
      intro _
      cases b0 <;> cases b1 <;> cases b2 <;> cases b3 <;> cases b4 <;> cases b5 <;> decide
  | [b0, b1, b2, b3, b4, b5, b6] =>
      intro _
      cases b0 <;> cases b1 <;> cases b2 <;> cases b3 <;> cases b4 <;> cases b5 <;>
        cases b6 <;> decide
  | b0 :: b1 :: b2 :: b3 :: b4 :: b5 :: b6 :: b7 :: rest =>
      intro h
      simp at h
      omega

theorem bytesBits_cons (b : Nat) (l : List Nat) :
    bytesBits (b :: l) = byteBits b ++ bytesBits l := by
  simp [bytesBits]

theorem bytesBits_packBits_aux : ∀ (n : Nat) (bits : List Bool), bits.length ≤ n →
    bytesBits (packBits bits)
      = bits ++ List.replicate ((8 - bits.length % 8) % 8) false := by
  intro n
  induction n with
  | zero =>
      intro bits h
      have hb : bits = [] := List.eq_nil_of_length_eq_zero (by omega)
      subst hb
      decide
  | succ n ih =>
      intro bits h
      rcases bits with _ | ⟨b0, _ | ⟨b1, _ | ⟨b2, _ | ⟨b3, _ | ⟨b4,
        _ | ⟨b5, _ | ⟨b6, _ | ⟨b7, rest⟩⟩⟩⟩⟩⟩⟩⟩
      · decide
      · exact bitWriter_tail _ (by simp)
      · exact bitWriter_tail _ (by simp)
      · exact bitWriter_tail _ (by simp)
      · exact bitWriter_tail _ (by simp)
      · exact bitWriter_tail _ (by simp)
      · exact bitWriter_tail _ (by simp)
      · exact bitWriter_tail _ (by simp)
      · obtain ⟨hrun, hbyte⟩ := bitWriter_block b0 b1 b2 b3 b4 b5 b6 b7 rest
        show bytesBits (bitWriterRun (b0 :: b1 :: b2 :: b3 :: b4 :: b5 :: b6 :: b7 :: rest) 0 0)
          = _
        rw [hrun, bytesBits_cons, hbyte]
        have hrest := ih rest (by simp at h; omega)
        rw [show bitWriterRun rest 0 0 = packBits rest from rfl, hrest]
        have hpad : (8 - rest.length % 8) % 8
            = (8 - (b0 :: b1 :: b2 :: b3 :: b4 :: b5 :: b6 :: b7 :: rest).length % 8) % 8 := by
          simp only [List.length_cons]
          omega
        rw [hpad]
        simp [List.cons_append, List.append_assoc]

theorem bytesBits_packBits (bits : List Bool) :
    bytesBits (packBits bits)
      = bits ++ List.replicate ((8 - bits.length % 8) % 8) false :=
  bytesBits_packBits_aux bits.length bits le_rfl

/-! ### The code table decodes its own codes -/

theorem wfTree_ne_nil (t : GoTree) (h : wfTree t) : t ≠ .nil := by
  cases t with
  | nil => exact absurd h (by simp [wfTree])
  | node c f m l r => simp

theorem wfTree_node (l r : GoTree) (hl : wfTree l) (hr : wfTree r) (c f m : Nat) :
    wfTree (.node c f m l r) := by
  cases l with
  | nil => exact absurd hl (by simp [wfTree])
  | node lc lf lm ll lr =>
      cases r with
      | nil => exact absurd hr (by simp [wfTree])
      | node rc rf rm rl rr => exact ⟨hl, hr⟩

theorem treeChars_node_left (c f m lc lf lm : Nat) (ll lr r : GoTree) :
    treeChars (.node c f m (.node lc lf lm ll lr) r)
      = treeChars (.node lc lf lm ll lr) ++ treeChars r := rfl

/-- Bit paths handed out by `generateCodes` under a nonempty prefix: the
decoder's walk from the same node consumes exactly the path's suffix and
yields the path's char. -/
theorem decodeSym_genCodes : ∀ (t : GoTree) (pre : List Bool), wfTree t → pre ≠ [] →
    ∀ c p, (c, p) ∈ genCodes t pre →
      ∃ q, p = pre ++ q ∧ ∀ rest, decodeSym t (q ++ rest) = some (c, rest) := by
  intro t
  induction t with
  | nil => intro pre _ _ c p hmem; simp [genCodes] at hmem
  | node a f m l r ihl ihr =>
      intro pre hwf hpre c p hmem
      cases l with
      | nil =>
          cases r with
          | nil =>
              have hne : pre.isEmpty = false := by
                cases pre with
                | nil => exact absurd rfl hpre
                | cons x xs => rfl
              rw [show genCodes (.node a f m .nil .nil) pre
                  = [(a, if pre.isEmpty then [false] else pre)] from rfl] at hmem
              rw [hne] at hmem
              simp only [Bool.false_eq_true, if_false, List.mem_singleton,
                Prod.mk.injEq] at hmem
              obtain ⟨rfl, rfl⟩ := hmem
              exact ⟨[], by simp, fun rest => rfl⟩
          | node rc rf rm rl rr => exact absurd hwf (by simp [wfTree])
      | node lc lf lm ll lr =>
          cases r with
          | nil => exact absurd hwf (by simp [wfTree])
          | node rc rf rm rl rr =>
              obtain ⟨hwl, hwr⟩ := hwf
              rcases List.mem_append.mp hmem with hm | hm
              · obtain ⟨q, hq, hdec⟩ := ihl (pre ++ [false]) hwl (by simp) c p hm
                refine ⟨false :: q, by simpa [List.append_assoc] using hq, fun rest => ?_⟩
                show decodeSym (.node lc lf lm ll lr) (q ++ rest) = some (c, rest)
                exact hdec rest
              · obtain ⟨q, hq, hdec⟩ := ihr (pre ++ [true]) hwr (by simp) c p hm
                refine ⟨true :: q, by simpa [List.append_assoc] using hq, fun rest => ?_⟩
                show decodeSym (.node rc rf rm rl rr) (q ++ rest) = some (c, rest)
                exact hdec rest

/-- Root-level version: from an inner root, a code from the table walks back
to its char, consuming exactly the code. -/
theorem decodeSym_root (a f m : Nat) (l r : GoTree) (hl : wfTree l) (hr : wfTree r) :
    ∀ c p, (c, p) ∈ genCodes (.node a f m l r) [] →
      ∀ rest, decodeSym (.node a f m l r) (p ++ rest) = some (c, rest) := by
  intro c p hmem rest
  cases l with
  | nil => exact absurd hl (by simp [wfTree])
  | node lc lf lm ll lr =>
      cases r with
      | nil => exact absurd hr (by simp [wfTree])
      | node rc rf rm rl rr =>
          rcases List.mem_append.mp hmem with hm | hm
          · obtain ⟨q, hq, hdec⟩ := decodeSym_genCodes _ [false] hl (by simp) c p hm
            rw [hq]
            show decodeSym (.node a f m (.node lc lf lm ll lr) (.node rc rf rm rl rr))
                (([false] ++ q) ++ rest) = some (c, rest)
            rw [show ([false] ++ q) ++ rest = false :: (q ++ rest) from by simp]
            show decodeSym (.node lc lf lm ll lr) (q ++ rest) = some (c, rest)
            exact hdec rest
          · obtain ⟨q, hq, hdec⟩ := decodeSym_genCodes _ [true] hr (by simp) c p hm
            rw [hq]
            show decodeSym (.node a f m (.node lc lf lm ll lr) (.node rc rf rm rl rr))
                (([true] ++ q) ++ rest) = some (c, rest)
            rw [show ([true] ++ q) ++ rest = true :: (q ++ rest) from by simp]
            show decodeSym (.node rc rf rm rl rr) (q ++ rest) = some (c, rest)
            exact hdec rest

theorem genCodes_fst (t : GoTree) : ∀ (pre : List Bool),
    (genCodes t pre).map Prod.fst = treeChars t := by
  induction t with
  | nil => intro pre; rfl
  | node a f m l r ihl ihr =>
      intro pre
      cases l with
      | nil =>
          cases r with
          | nil => rfl
          | node rc rf rm rl rr =>
              show ((genCodes .nil (pre ++ [false])
                  ++ genCodes (.node rc rf rm rl rr) (pre ++ [true])).map Prod.fst) = _
              rw [List.map_append, ihl, ihr]
              rfl
      | node lc lf lm ll lr =>
          show ((genCodes (.node lc lf lm ll lr) (pre ++ [false])
              ++ genCodes r (pre ++ [true])).map Prod.fst) = _
          cases r with
          | nil =>
              rw [List.map_append, ihl, ihr]
              rfl
          | node rc rf rm rl rr =>
              rw [List.map_append, ihl, ihr]
              rfl

theorem codeOf_mem (codes : List (Nat × List Bool)) (b : Nat)
    (h : b ∈ codes.map Prod.fst) :
    ∃ p, codeOf codes b = some p ∧ (b, p) ∈ codes := by
  induction codes with
  | nil => simp at h
  | cons e es ih =>
      by_cases hcase : e.1 = b
      · refine ⟨e.2, ?_, ?_⟩
        · simp [codeOf, List.find?, hcase]
        · have hbe : (b, e.2) = e := by
            rw [← hcase]
          rw [hbe]
          exact List.mem_cons_self e es
      · have h2 : b ∈ es.map Prod.fst := by
          rcases List.mem_cons.mp h with h | h
          · exact absurd h.symm hcase
          · exact h
        obtain ⟨p, hp, hm⟩ := ih h2
        refine ⟨p, ?_, List.mem_cons_of_mem _ hm⟩
        rw [show codeOf (e :: es) b = codeOf es b from ?_]
        · exact hp
        · simp [codeOf, List.find?, show (e.1 == b) = false from by simp [hcase]]

/-! ### The merge loop preserves shape and chars -/

theorem mem_treeChars_merge (x y : GoTree) (hx : wfTree x) (bb c f m : Nat)
    (h : bb ∈ treeChars x ∨ bb ∈ treeChars y) :
    bb ∈ treeChars (.node c f m x y) := by
  cases x with
  | nil => exact absurd hx (by simp [wfTree])
  | node xc xf xm xl xr =>
      rw [treeChars_node_left]
      exact List.mem_append.mpr h

theorem buildLoopF_wf_chars (fuel : Nat) : ∀ (q : List GoTree),
    q.length ≤ fuel → q ≠ [] → (∀ t ∈ q, wfTree t) →
    wfTree (buildLoopF fuel q)
      ∧ ∀ b, (∃ u ∈ q, b ∈ treeChars u) → b ∈ treeChars (buildLoopF fuel q) := by
  induction fuel with
  | zero =>
      intro q hfuel hq0 _
      cases q with
      | nil => exact absurd rfl hq0
      | cons a t => simp at hfuel
  | succ fuel ih =>
      intro q hfuel hq0 hq
      match q with
      | [t] =>
          refine ⟨hq t (by simp), ?_⟩
          rintro b ⟨u, hu, hb⟩
          simp only [List.mem_singleton] at hu
          subst hu
          simpa [buildLoopF] using hb
      | t1 :: t2 :: ts =>
          cases hs : insertionSort (fun a b => !nodeLess b a) (t1 :: t2 :: ts) with
          | nil =>
              have := insertionSort_length (fun a b => !nodeLess b a) (t1 :: t2 :: ts)
              rw [hs] at this
              simp at this
          | cons a tail =>
              cases tail with
              | nil =>
                  have := insertionSort_length (fun a b => !nodeLess b a) (t1 :: t2 :: ts)
                  rw [hs] at this
                  simp at this
              | cons b' rest =>
                  have hmem : ∀ t, t ∈ a :: b' :: rest → t ∈ t1 :: t2 :: ts := by
                    intro t ht
                    have h2 : t ∈ insertionSort (fun a b => !nodeLess b a)
                        (t1 :: t2 :: ts) := by
                      rw [hs]; exact ht
                    exact (mem_insertionSort _ _ _).mp h2
                  have hwa := hq a (hmem a (by simp))
                  have hwb := hq b' (hmem b' (by simp))
                  have hlen : rest.length = ts.length := by
                    have := insertionSort_length (fun a b => !nodeLess b a)
                      (t1 :: t2 :: ts)
                    rw [hs] at this
                    simp at this
                    omega
                  have hstep :
                      buildLoopF (fuel + 1) (t1 :: t2 :: ts)
                        = buildLoopF fuel
                            (rest ++ [.node 0 (treeFreq a + treeFreq b')
                              (treeMinChar a) a b']) := by
                    rw [buildLoopF, hs]
                  rw [hstep]
                  have hnewwf : ∀ t ∈ rest
                      ++ [GoTree.node 0 (treeFreq a + treeFreq b') (treeMinChar a) a b'],
                      wfTree t := by
                    intro t ht
                    rcases List.mem_append.mp ht with h | h
                    · exact hq t (hmem t (by simp [h]))
                    · simp only [List.mem_singleton] at h
                      subst h
                      exact wfTree_node a b' hwa hwb _ _ _
                  have hres := ih (rest
                      ++ [.node 0 (treeFreq a + treeFreq b') (treeMinChar a) a b'])
                    (by simp only [List.length_append, List.length_cons] at hfuel ⊢
                        simp [hlen]
                        omega)
                    (by simp) hnewwf
                  refine ⟨hres.1, ?_⟩
                  rintro bb ⟨u, hu, hb⟩
                  apply hres.2
                  have hu2 : u ∈ a :: b' :: rest := by
                    have h2 : u ∈ insertionSort (fun a b => !nodeLess b a)
                        (t1 :: t2 :: ts) := (mem_insertionSort _ _ _).mpr hu
                    rw [hs] at h2
                    exact h2
                  have hchars : bb ∈ treeChars
                      (.node 0 (treeFreq a + treeFreq b') (treeMinChar a) a b')
                      ∨ bb ∈ treeChars u ∧ u ∈ rest := by
                    rcases List.mem_cons.mp hu2 with h | hu3
                    · rw [h] at hb
                      exact Or.inl (mem_treeChars_merge a b' hwa bb _ _ _ (Or.inl hb))
                    · rcases List.mem_cons.mp hu3 with h | hu4
                      · rw [h] at hb
                        exact Or.inl (mem_treeChars_merge a b' hwa bb _ _ _ (Or.inr hb))
                      · exact Or.inr ⟨hb, hu4⟩
                  rcases hchars with h | ⟨hb2, hu5⟩
                  · exact ⟨_, List.mem_append.mpr (Or.inr (by simp)), h⟩
                  · exact ⟨u, List.mem_append.mpr (Or.inl hu5), hb2⟩

/-! ### Frequency table serialisation round-trip -/

theorem decodeSymbols_concat (t : GoTree) (enc : Nat → List Bool) :
    ∀ (data : List Nat) (tail : List Bool),
      (∀ b ∈ data, ∀ rest, decodeSym t (enc b ++ rest) = some (b, rest)) →
      decodeSymbols data.length t (data.flatMap enc ++ tail) = some (data, tail) := by
  intro data
  induction data with
  | nil => intro tail _; rfl
  | cons b ds ih =>
      intro tail hp
      have h1 := hp b (by simp) (ds.flatMap enc ++ tail)
      rw [show (b :: ds).flatMap enc ++ tail = enc b ++ (ds.flatMap enc ++ tail) from by
        simp [List.flatMap_cons, List.append_assoc]]
      rw [show (b :: ds).length = ds.length + 1 from rfl]
      simp only [decodeSymbols]
      rw [h1]
      dsimp only
      rw [ih tail (fun x hx => hp x (by simp [hx]))]

theorem flatMap_freq_length (l : List (Nat × Nat)) :
    (l.flatMap (fun p => p.1 % 256 :: be64 p.2)).length = 9 * l.length := by
  induction l with
  | nil => rfl
  | cons p ps ih =>
      have hb64 : (be64 p.2).length = 8 := beBytes_length 8 p.2
      simp only [List.flatMap_cons, List.length_append, List.length_cons, hb64, ih]
      omega

theorem serializeFreqTable_length (l : List (Nat × Nat)) :
    (serializeFreqTable l).length = 2 + 9 * l.length := by
  unfold serializeFreqTable
  rw [List.length_append, flatMap_freq_length,
    show (be16 l.length).length = 2 from beBytes_length 2 l.length]

theorem readFreqEntries_roundtrip : ∀ (l : List (Nat × Nat)) (rest : List Nat),
    (∀ p ∈ l, p.1 < 256 ∧ p.2 < 2 ^ 64) →
    readFreqEntries l.length (l.flatMap (fun p => p.1 % 256 :: be64 p.2) ++ rest)
      = some (l, rest) := by
  intro l
  induction l with
  | nil => intro rest _; rfl
  | cons p ps ih =>
      intro rest hb
      obtain ⟨hc, hf⟩ := hb p (by simp)
      rw [show (p :: ps).flatMap (fun p => p.1 % 256 :: be64 p.2) ++ rest
          = p.1 % 256
            :: (beBytes 8 p.2 ++ (ps.flatMap (fun p => p.1 % 256 :: be64 p.2) ++ rest))
          from by simp [List.flatMap_cons, be64, List.append_assoc]]
      rw [show (p :: ps).length = ps.length + 1 from rfl]
      simp only [readFreqEntries]
      rw [readBeNat_beBytes_of_lt 8 p.2 _ hf]
      dsimp only
      rw [ih rest (fun q hq => hb q (by simp [hq]))]
      dsimp only
      rw [Nat.mod_eq_of_lt hc]

theorem deserializeFreqTable_roundtrip (l : List (Nat × Nat)) (rest : List Nat) (lim : Nat)
    (hb : ∀ p ∈ l, p.1 < 256 ∧ p.2 < 2 ^ 64) (hlen : l.length ≤ 256)
    (hlim : 2 + 9 * l.length ≤ lim) :
    deserializeFreqTable lim (serializeFreqTable l ++ rest) = some (l, rest) := by
  unfold deserializeFreqTable
  rw [show serializeFreqTable l ++ rest
      = beBytes 2 l.length ++ (l.flatMap (fun p => p.1 % 256 :: be64 p.2) ++ rest) from by
    simp [serializeFreqTable, be16, List.append_assoc]]
  rw [readBeNat_beBytes_of_lt 2 l.length _ (by norm_num; omega)]
  dsimp only
  rw [if_neg (by omega)]
  exact readFreqEntries_roundtrip l rest hb

/-! ### Frequency table of a chunk -/

theorem insertSorted_perm {α : Type} (le : α → α → Bool) (y : α) (l : List α) :
    (insertSorted le y l).Perm (y :: l) := by
  induction l with
  | nil => exact List.Perm.refl _
  | cons a t ih =>
      simp only [insertSorted]
      split
      · exact List.Perm.refl _
      · exact (List.Perm.cons a ih).trans (List.Perm.swap y a t)

theorem insertionSort_perm {α : Type} (le : α → α → Bool) (l : List α) :
    (insertionSort le l).Perm l := by
  induction l with
  | nil => exact List.Perm.refl _
  | cons a t ih =>
      exact (insertSorted_perm le a (insertionSort le t)).trans (ih.cons a)

theorem freqList_map_fst (data : List Nat) :
    (freqList data).map Prod.fst
      = insertionSort (fun a b => decide (a ≤ b)) data.dedup := by
  simp only [freqList, List.map_map]
  rw [show (Prod.fst ∘ fun b => (b, List.count b data)) = id from rfl, List.map_id]

theorem mem_freqList_fst (data : List Nat) (b : Nat) (hbmem : b ∈ data) :
    b ∈ (freqList data).map Prod.fst := by
  rw [freqList_map_fst, mem_insertionSort]
  exact List.mem_dedup.mpr hbmem

theorem freqList_bounds (data : List Nat) (h3 : isBytes data) :
    ∀ p ∈ freqList data, p.1 < 256 ∧ p.2 ≤ data.length := by
  intro p hp
  simp only [freqList, List.mem_map] at hp
  obtain ⟨b, hbs, rfl⟩ := hp
  have hbd : b ∈ data := List.mem_dedup.mp ((mem_insertionSort _ _ _).mp hbs)
  exact ⟨h3 b hbd, List.count_le_length b data⟩

theorem freqList_length_le (data : List Nat) (h3 : isBytes data) :
    (freqList data).length ≤ 256 := by
  have h0 : (freqList data).length = data.dedup.length := by
    simp [freqList, insertionSort_length]
  rw [h0]
  have hn : data.dedup.Nodup := List.nodup_dedup data
  have hcard : data.dedup.toFinset.card = data.dedup.length :=
    List.toFinset_card_of_nodup hn
  have hsub : data.dedup.toFinset ⊆ Finset.range 256 := by
    intro x hx
    exact Finset.mem_range.mpr (h3 x (List.mem_dedup.mp (List.mem_toFinset.mp hx)))
  calc data.dedup.length = data.dedup.toFinset.card := hcard.symm
    _ ≤ (Finset.range 256).card := Finset.card_le_card hsub
    _ = 256 := Finset.card_range 256

theorem freqList_nodup_fst (data : List Nat) : ((freqList data).map Prod.fst).Nodup := by
  rw [freqList_map_fst]
  exact ((insertionSort_perm (fun a b => decide (a ≤ b)) data.dedup).nodup_iff).mpr
    (List.nodup_dedup data)

theorem freqList_ne_nil (data : List Nat) (h : data ≠ []) : freqList data ≠ [] := by
  intro hc
  have hmap : (freqList data).map Prod.fst = [] := by rw [hc]; rfl
  rw [freqList_map_fst] at hmap
  have hperm := insertionSort_perm (fun a b => decide (a ≤ b)) data.dedup
  rw [hmap] at hperm
  exact h ((List.dedup_eq_nil _).mp (hperm.symm.eq_nil))

/-! ### The round-trip -/

/-- The decompressor inverts the compressor as soon as every data byte's
code walks back to the byte from the root — established separately for the
degenerate single-char tree and the merged tree. -/
theorem decompress_of_decode (data : List Nat) (h1 : data ≠ [])
    (h2 : data.length ≤ huffmanChunkSizeC) (h3 : isBytes data)
    (htne : buildHuffmanTree (freqList data) ≠ .nil)
    (hdec : ∀ b ∈ data, ∀ rest,
      decodeSym (buildHuffmanTree (freqList data))
        ((codeOf (genCodes (buildHuffmanTree (freqList data)) []) b).getD [] ++ rest)
        = some (b, rest)) :
    decompressChunk (compressChunk data) = .ok data := by
  have h2' : data.length ≤ 262144 := by simpa [huffmanChunkSizeC] using h2
  have hkle := freqList_length_le data h3
  have hbounds : ∀ p ∈ freqList data, p.1 < 256 ∧ p.2 < 2 ^ 64 := by
    intro p hp
    refine ⟨(freqList_bounds data h3 p hp).1, ?_⟩
    have := (freqList_bounds data h3 p hp).2
    norm_num
    omega
  have hcc : compressChunk data
      = be64 data.length ++ (be32 (serializeFreqTable (freqList data)).length
        ++ (serializeFreqTable (freqList data)
          ++ packBits (data.flatMap fun b =>
            (codeOf (genCodes (buildHuffmanTree (freqList data)) []) b).getD []))) := by
    unfold compressChunk
    rw [if_neg (by simp [List.isEmpty_iff]; exact h1)]
    dsimp only
    simp [List.append_assoc]
  rw [hcc]
  unfold decompressChunk
  rw [show be64 data.length = beBytes 8 data.length from rfl,
    readBeNat_beBytes_of_lt 8 data.length _ (by norm_num; omega)]
  dsimp only
  rw [if_neg (fun hc => h1 (List.eq_nil_of_length_eq_zero hc))]
  rw [if_neg (not_lt.mpr h2)]
  rw [serializeFreqTable_length]
  rw [show be32 (2 + 9 * (freqList data).length)
      = beBytes 4 (2 + 9 * (freqList data).length) from rfl,
    readBeNat_beBytes_of_lt 4 (2 + 9 * (freqList data).length) _ (by norm_num; omega)]
  dsimp only
  rw [if_neg (by
    push_neg
    refine ⟨by omega, ?_⟩
    show 2 + 9 * (freqList data).length ≤ maxHuffmanHeaderLenC
    unfold maxHuffmanHeaderLenC
    omega)]
  rw [deserializeFreqTable_roundtrip (freqList data) _ _ hbounds hkle (by omega)]
  dsimp only
  cases hT : buildHuffmanTree (freqList data) with
  | nil => exact absurd hT htne
  | node a f m l r =>
      rw [hT] at hdec
      dsimp only
      rw [bytesBits_packBits]
      rw [decodeSymbols_concat (.node a f m l r)
        (fun b => (codeOf (genCodes (.node a f m l r) []) b).getD []) data _ hdec]

/-- Round-trip of a single chunk through `compressChunk` and
`decompressChunk`. -/
theorem huffman_roundtrip (data : List Nat) (h1 : data ≠ [])
    (h2 : data.length ≤ huffmanChunkSizeC) (h3 : isBytes data) :
    decompressChunk (compressChunk data) = .ok data := by
  cases hfr0 : freqList data with
  | nil => exact absurd hfr0 (freqList_ne_nil data h1)
  | cons p1 tl =>
      cases tl with
      | nil =>
          refine decompress_of_decode data h1 h2 h3
            (by rw [hfr0]; exact fun hc => GoTree.noConfusion hc) ?_
          intro b hbmem rest
          have hbf := mem_freqList_fst data b hbmem
          rw [hfr0] at hbf
          have hb1 : b = p1.1 := by simpa using hbf
          subst hb1
          rw [hfr0]
          rw [show genCodes (buildHuffmanTree [p1]) [] = [(p1.1, [false])] from rfl]
          rw [show codeOf [(p1.1, [false])] p1.1 = some [false] from by
            simp [codeOf, List.find?]]
          rfl
      | cons p2 ps =>
          have hQwf : ∀ t ∈ (p1 :: p2 :: ps).map (fun p => leafOf p.1 p.2), wfTree t := by
            intro t ht
            simp only [List.mem_map] at ht
            obtain ⟨p, _, rfl⟩ := ht
            trivial
          have hbuild : buildHuffmanTree (p1 :: p2 :: ps)
              = buildLoopF ((p1 :: p2 :: ps).map (fun p => leafOf p.1 p.2)).length
                  ((p1 :: p2 :: ps).map (fun p => leafOf p.1 p.2)) := rfl
          have hres := buildLoopF_wf_chars
            ((p1 :: p2 :: ps).map (fun p => leafOf p.1 p.2)).length
            ((p1 :: p2 :: ps).map (fun p => leafOf p.1 p.2)) le_rfl (by simp) hQwf
          have hwf : wfTree (buildHuffmanTree (freqList data)) := by
            rw [hfr0, hbuild]
            exact hres.1
          have hchars : ∀ b, b ∈ (freqList data).map Prod.fst →
              b ∈ treeChars (buildHuffmanTree (freqList data)) := by
            intro b hbf
            rw [hfr0] at hbf
            rw [hfr0, hbuild]
            apply hres.2
            simp only [List.mem_map] at hbf
            obtain ⟨p, hpmem, rfl⟩ := hbf
            refine ⟨leafOf p.1 p.2, List.mem_map_of_mem _ hpmem, ?_⟩
            show p.1 ∈ [p.1]
            simp
          have hnodup := freqList_nodup_fst data
          rw [hfr0] at hnodup
          have hnodup' : (p1.1 :: p2.1 :: ps.map Prod.fst).Nodup := by
            simpa using hnodup
          have hne12 : p1.1 ≠ p2.1 := by
            intro hc
            rcases List.nodup_cons.mp hnodup' with ⟨hnm, _⟩
            exact hnm (by rw [hc]; exact List.mem_cons_self _ _)
          refine decompress_of_decode data h1 h2 h3 (wfTree_ne_nil _ hwf) ?_
          intro b hbmem rest
          have hbcodes : b ∈ (genCodes (buildHuffmanTree (freqList data)) []).map
              Prod.fst := by
            rw [genCodes_fst]
            exact hchars b (mem_freqList_fst data b hbmem)
          obtain ⟨pth, hco, hmem⟩ := codeOf_mem _ b hbcodes
          rw [hco]
          cases hT : buildHuffmanTree (freqList data) with
          | nil => exact absurd hT (wfTree_ne_nil _ hwf)
          | node a f m l r =>
              rw [hT] at hwf hmem
              cases l with
              | nil =>
                  cases r with
                  | nil =>
                      exfalso
                      have h1c : p1.1 ∈ treeChars (buildHuffmanTree (freqList data)) :=
                        hchars p1.1 (by rw [hfr0]; simp)
                      have h2c : p2.1 ∈ treeChars (buildHuffmanTree (freqList data)) :=
                        hchars p2.1 (by rw [hfr0]; simp)
                      rw [hT] at h1c h2c
                      have h1c' : p1.1 ∈ [a] := h1c
                      have h2c' : p2.1 ∈ [a] := h2c
                      simp at h1c' h2c'
                      exact hne12 (h1c'.trans h2c'.symm)
                  | node rc rf rm rl rr => exact absurd hwf (by simp [wfTree])
              | node lc lf lm ll lr =>
                  cases r with
                  | nil => exact absurd hwf (by simp [wfTree])
                  | node rc rf rm rl rr =>
                      obtain ⟨hl, hr⟩ := hwf
                      exact decodeSym_root a f m _ _ hl hr b pth hmem rest

/-- C6: for every nonempty chunk of at most `huffmanChunkSize = 256 KiB`
bytes, decompressing the compressed chunk gives the chunk back — the decoder
rebuilds the tree from the serialised frequency table and decodes exactly
`original_len` symbols MSB-first; and the packed bit stream replays as the
written bits followed only by the zero pad of the final byte, which the
decoder never examines. -/
theorem c6_huffman_roundtrip (data : List Nat) (h1 : 1 ≤ data.length)
    (h2 : data.length ≤ huffmanChunkSizeC) (h3 : isBytes data) :
    decompressChunk (compressChunk data) = .ok data
      ∧ ∀ bits : List Bool, bytesBits (packBits bits)
          = bits ++ List.replicate ((8 - bits.length % 8) % 8) false :=
  ⟨huffman_roundtrip data (by intro hc; rw [hc] at h1; simp at h1) h2 h3,
   bytesBits_packBits⟩

/-- C6 witness: the 5-byte chunk `"hufff"`. -/
theorem c6_huffman_roundtrip_witness :
    decompressChunk (compressChunk [104, 117, 102, 102, 102])
        = .ok [104, 117, 102, 102, 102]
      ∧ ∀ bits : List Bool, bytesBits (packBits bits)
          = bits ++ List.replicate ((8 - bits.length % 8) % 8) false :=
  c6_huffman_roundtrip [104, 117, 102, 102, 102] (by decide) (by decide) (by decide)

/-! ## Claim C8 — the compressed writer's close path -/

/-- C8 (counterexample to "flushes a final short chunk **only when** buffered
data remains"): with an empty buffer, `Close` still performs the final flush
and still emits one frame for it — the zero-length end marker
`HCHK ‖ be32 0` (`flush(final=true)` skips its early return and always
enqueues the buffer as a job). -/
theorem c8_empty_buffer_still_flushed :
    CloseEvent.finalFlush [] ∈ closeTrace 0 [] []
      ∧ CloseEvent.emitFrame 0 (frameBytes (compressChunk [])) ∈ closeTrace 0 [] []
      ∧ compressChunk [] = []
      ∧ frameBytes (compressChunk []) = chunkMagicB ++ be32 0 := by
  decide

/-- C8 (amended): `Close` always enqueues one final job carrying the
buffered bytes (an empty buffer gives the zero-length end-marker frame); the
close path runs in order — final flush, job-channel close, worker join,
result-channel close, then every frame (the pending ones and the final
buffer's, in ascending id order), and only after all of them the aggregator
join and, last of all, the sink close; the final frame's body decompresses
back to the buffered bytes. -/
theorem c8_close_order_and_final_frame (baseId : Nat) (pending : List (List Nat))
    (buffer : List Nat) (h2 : buffer.length ≤ huffmanChunkSizeC) (h3 : isBytes buffer) :
    (closeTrace baseId pending buffer).take 4
        = [.finalFlush buffer, .closeJobsChannel, .joinWorkers, .closeResultsChannel]
      ∧ (closeTrace baseId pending buffer).getLast? = some .closeSink
      ∧ CloseEvent.emitFrame (baseId + pending.length)
          (frameBytes (compressChunk buffer)) ∈ closeTrace baseId pending buffer
      ∧ (if buffer = [] then compressChunk buffer = []
         else decompressChunk (compressChunk buffer) = .ok buffer) := by
  refine ⟨rfl, ?_, ?_, ?_⟩
  · rw [show closeTrace baseId pending buffer
        = (([CloseEvent.finalFlush buffer, CloseEvent.closeJobsChannel,
              CloseEvent.joinWorkers, CloseEvent.closeResultsChannel]
            ++ (List.enumFrom baseId (pending ++ [buffer])).map
                (fun p => CloseEvent.emitFrame p.1 (frameBytes (compressChunk p.2)))
            ++ [CloseEvent.joinAggregator]) ++ [CloseEvent.closeSink]) from by
      simp [closeTrace]]
    exact List.getLast?_concat _
  · have hmem : (baseId + pending.length, buffer)
        ∈ List.enumFrom baseId (pending ++ [buffer]) := by
      rw [List.enumFrom_append]
      exact List.mem_append.mpr (Or.inr (by simp [List.enumFrom]))
    exact List.mem_append.mpr (Or.inl (List.mem_append.mpr
      (Or.inr (List.mem_map_of_mem _ hmem))))
  · by_cases hb : buffer = []
    · rw [if_pos hb, hb]
      rfl
    · rw [if_neg hb]
      exact huffman_roundtrip buffer hb h2 h3

/-- C8 witness: one pending frame, a 2-byte buffer. -/
theorem c8_close_order_and_final_frame_witness :
    (closeTrace 3 [[1]] [7, 7]).take 4
        = [.finalFlush [7, 7], .closeJobsChannel, .joinWorkers, .closeResultsChannel]
      ∧ (closeTrace 3 [[1]] [7, 7]).getLast? = some .closeSink
      ∧ CloseEvent.emitFrame (3 + [[1]].length) (frameBytes (compressChunk [7, 7]))
          ∈ closeTrace 3 [[1]] [7, 7]
      ∧ (if ([7, 7] : List Nat) = [] then compressChunk [7, 7] = []
         else decompressChunk (compressChunk [7, 7]) = .ok [7, 7]) :=
  c8_close_order_and_final_frame 3 [[1]] [7, 7] (by decide) (by decide)

end DataBackup
